import Mathlib

/-!
URL decomposition of `mycurl.cpp`.

A shallow embedding of `parse_url` (src/mycurl.cpp, lines 83-167) and of the
helpers it calls, followed by theorems about it.

Modelling conventions.

* A `std::string` is the list of its characters (`Str`).  Every character the
  parser inspects (`:`, `/`, `[`, `]`, the digits, the ASCII letters) is ASCII.
* A `size_t` position is a `Nat`; `std::string::npos` is `none`.  No position
  the parser computes exceeds `input.size()`, and every subtraction it performs
  has a left operand that is at least the right one, so the arithmetic never
  wraps.
* `std::string::substr` throws `std::out_of_range` when the start position is
  beyond the size, and indexing beyond the last character is undefined; both are
  `none` of `Option`.
* The reference parameters `out` and `error` are passed in and returned: an
  `Outcome` carries the `bool` result with the final contents of both.
-/

namespace MyCurl

/-- A `std::string`. -/
abbrev Str := List Char

/-- The record `struct Url` (lines 46-51). -/
structure Url where
  scheme : Str
  host : Str
  port : Str
  path : Str
deriving DecidableEq, Repr

/-- What a call of `parse_url` leaves behind: its return value and the contents
of the two reference parameters. -/
structure Outcome where
  ok : Bool
  out : Url
  error : Str
deriving DecidableEq, Repr

/-- A default-constructed `Url`: four empty strings. -/
def Url.empty : Url := ⟨[], [], [], []⟩

/-! ## `std::string` and `<cctype>` primitives -/

/-- The function `std::tolower` in the "C" locale: `A`..`Z` go to `a`..`z`,
every other character is unchanged. -/
def tolower (c : Char) : Char :=
  if 65 ≤ c.toNat ∧ c.toNat ≤ 90 then Char.ofNat (c.toNat + 32) else c

/-- The function `::isdigit` in the "C" locale. -/
def isdigit (c : Char) : Bool :=
  decide (48 ≤ c.toNat ∧ c.toNat ≤ 57)

/-- The helper `to_lower_inplace` (lines 64-67), returning the new contents. -/
def to_lower_inplace (s : Str) : Str :=
  s.map tolower

/-- Whether `pat` is what `s` begins with. -/
def starts_with : Str → Str → Bool
  | [], _ => true
  | _ :: _, [] => false
  | p :: ps, c :: cs => p == c && starts_with ps cs

/-- Scan for `pat`, the head of the list being at position `i`. -/
def find_str_from (pat : Str) : Str → Nat → Option Nat
  | [], i => if pat = [] then some i else none
  | c :: cs, i => if starts_with pat (c :: cs) then some i else find_str_from pat cs (i + 1)

/-- The call `s.find(pat, pos)` for a string `pat`. -/
def find_str (s pat : Str) (pos : Nat) : Option Nat :=
  if pos ≤ s.length then find_str_from pat (s.drop pos) pos else none

/-- Scan for the character `c`, the head of the list being at position `i`. -/
def find_char_from (c : Char) : Str → Nat → Option Nat
  | [], _ => none
  | x :: xs, i => if x = c then some i else find_char_from c xs (i + 1)

/-- The call `s.find(c, pos)` for a character `c`. -/
def find_char (s : Str) (c : Char) (pos : Nat) : Option Nat :=
  find_char_from c (s.drop pos) pos

/-- The call `s.substr(pos, n)`; `none` is the `std::out_of_range` it throws
when `pos > s.size()`. -/
def substr (s : Str) (pos n : Nat) : Option Str :=
  if pos ≤ s.length then some ((s.drop pos).take n) else none

/-- The call `s.substr(pos)`, to the end of the string. -/
def substr_from (s : Str) (pos : Nat) : Option Str :=
  if pos ≤ s.length then some (s.drop pos) else none

/-- The expression `s[i]`; `none` when `i` is not the position of a character. -/
def index (s : Str) (i : Nat) : Option Char :=
  s[i]?

/-- The guarded test `i < s.size() && s[i] == c`, evaluated left to right. -/
def char_at_is (s : Str) (i : Nat) (c : Char) : Option Bool :=
  if i < s.length then (index s i).map (fun x => x == c) else some false

/-! ## The parser -/

/-- The helper `is_default_port` (lines 70-74). -/
def is_default_port (u : Url) : Bool :=
  if u.scheme = "https".toList then u.port == "443".toList
  else if u.scheme = "http".toList then u.port == "80".toList
  else false

/-- The helper `validate_scheme` (lines 76-80). -/
def validate_scheme (u : Url) : Bool :=
  if u.scheme = "https".toList then true
  else if u.scheme = "http".toList then true
  else false

/-- Lines 160-166 of `parse_url`: the port must be all digits. -/
def validate_port (out : Url) (error : Str) : Outcome :=
  if !(out.port.all isdigit) then
    ⟨false, out, "Invalid port: ".toList ++ out.port⟩
  else
    ⟨true, out, error⟩

/-- Lines 149-166 of `parse_url`, from the label `finalize_defaults` on. -/
def finalize_defaults (out : Url) (error : Str) : Outcome :=
  if out.port.isEmpty then
    if out.scheme = "https".toList then
      validate_port { out with port := "443".toList } error
    else if out.scheme = "http".toList then
      validate_port { out with port := "80".toList } error
    else
      ⟨false, out, "Unsupported scheme: ".toList ++ out.scheme⟩
  else
    validate_port out error

/-- Lines 137-147 of `parse_url`, falling through to `finalize_defaults`:
the empty-host test and the assignment of `path` from `path_start`. -/
def host_and_path (input : Str) (out : Url) (error : Str)
    (path_start : Option Nat) : Option Outcome :=
  if out.host.isEmpty then
    some ⟨false, out, "Invalid URL: empty host".toList⟩
  else
    match path_start with
    | none => some (finalize_defaults { out with path := "/".toList } error)
    | some ps => do
      let p ← substr_from input ps
      let p := if p.isEmpty then "/".toList else p
      some (finalize_defaults { out with path := p } error)

/-- Lines 101-123 of `parse_url`: the branch for a bracketed IPv6 literal. -/
def bracketed_host (input : Str) (out : Url) (error : Str)
    (host_start : Nat) : Option Outcome :=
  match find_char input ']' host_start with
  | none =>
    some ⟨false, out, "Invalid URL: missing closing ']' for IPv6 address".toList⟩
  | some rb => do
    let h ← substr input host_start (rb - host_start + 1)
    let out := { out with host := h }
    let colon_follows ← char_at_is input (rb + 1) ':'
    if colon_follows then
      let port_begin := rb + 2
      match find_char input '/' port_begin with
      | none => do
        let p ← substr_from input port_begin
        some (finalize_defaults { out with port := p, path := "/".toList } error)
      | some path_start => do
        let p ← substr input port_begin (path_start - port_begin)
        host_and_path input { out with port := p } error (some path_start)
    else
      host_and_path input out error (find_char input '/' (rb + 1))

/-- Lines 125-135 of `parse_url`: the branch for an IPv4 address or a name. -/
def bare_host (input : Str) (out : Url) (error : Str)
    (host_start : Nat) : Option Outcome :=
  let path_start := find_char input '/' host_start
  let host_end := match path_start with
    | none => input.length
    | some ps => ps
  match find_char input ':' host_start with
  | some colon =>
    if colon < host_end then do
      let h ← substr input host_start (colon - host_start)
      let p ← substr input (colon + 1) (host_end - (colon + 1))
      host_and_path input { out with host := h, port := p } error path_start
    else do
      let h ← substr input host_start (host_end - host_start)
      host_and_path input { out with host := h } error path_start
  | none => do
    let h ← substr input host_start (host_end - host_start)
    host_and_path input { out with host := h } error path_start

/-- The function `parse_url` (lines 83-167). -/
def parse_url (input : Str) (out : Url) (error : Str) : Option Outcome :=
  match find_str input "://".toList 0 with
  | none => some ⟨false, out, "Invalid URL: missing '://'".toList⟩
  | some pos => do
    let s ← substr input 0 pos
    let out := { out with scheme := to_lower_inplace s }
    if !validate_scheme out then
      some ⟨false, out, error⟩
    else
      let host_start := pos + 3
      let bracket ← char_at_is input host_start '['
      if bracket then
        bracketed_host input out error host_start
      else
        bare_host input out error host_start

/-- The port `finalize_defaults` assigns for a scheme. -/
def default_port (scheme : Str) : Str :=
  if scheme = "https".toList then "443".toList else "80".toList

/-! ## Position-free description

The text after `://` is cut at the first occurrence of a character:
`before c l` is what precedes it, `since c l` is the rest, starting with it. -/

/-- What precedes the first `c` in `l` (all of `l` when there is none). -/
def before (c : Char) : Str → Str
  | [] => []
  | x :: xs => if x = c then [] else x :: before c xs

/-- The part of `l` that starts at its first `c` (empty when there is none). -/
def since (c : Char) : Str → Str
  | [] => []
  | x :: xs => if x = c then x :: xs else since c xs

/-- The path stored for the text `q` that starts at the first unconsumed `/`:
`q` itself, or `/` when nothing is left. -/
def path_of (q : Str) : Str :=
  if q.isEmpty then "/".toList else q

/-- Lines 125-166 of `parse_url` on the text `rest` that follows `://`: the host
region ends at the first `/`, and the first `:` inside it separates host and
port. -/
def bare_rest (out : Url) (rest : Str) (error : Str) : Outcome :=
  let region := before '/' rest
  let out :=
    if ':' ∈ region then
      { out with host := before ':' region, port := (since ':' region).tail }
    else
      { out with host := region }
  if out.host.isEmpty then
    ⟨false, out, "Invalid URL: empty host".toList⟩
  else
    finalize_defaults { out with path := path_of (since '/' rest) } error

/-- Lines 101-123 and 137-166 of `parse_url` on the text `rest` that follows
`://` and starts with `[`: the host ends at the first `]`, and a `:` right
after it introduces the port. -/
def bracketed_rest (out : Url) (rest : Str) (error : Str) : Outcome :=
  if ']' ∈ rest then
    let out := { out with host := before ']' rest ++ [']'] }
    let t := (since ']' rest).tail
    if t.head? = some ':' then
      finalize_defaults
        { out with port := before '/' t.tail, path := path_of (since '/' t.tail) } error
    else
      finalize_defaults { out with path := path_of (since '/' t) } error
  else
    ⟨false, out, "Invalid URL: missing closing ']' for IPv6 address".toList⟩

/-- What lines 92-166 of `parse_url` do with the text `rest` that follows
`://`, `out` holding the lower-cased scheme already: the same steps as the
code, on the text instead of on positions in `input`. -/
def parse_rest (out : Url) (rest : Str) (error : Str) : Outcome :=
  if !validate_scheme out then
    ⟨false, out, error⟩
  else if rest.head? = some '[' then
    bracketed_rest out rest error
  else
    bare_rest out rest error

/-! ## Lemmas on the primitives -/

theorem before_append_since (c : Char) (l : Str) : before c l ++ since c l = l := by
  induction l with
  | nil => rfl
  | cons x xs ih =>
    by_cases h : x = c
    · simp [before, since, h]
    · simp [before, since, h, ih]

theorem not_mem_before (c : Char) (l : Str) : c ∉ before c l := by
  induction l with
  | nil => simp [before]
  | cons x xs ih =>
    by_cases h : x = c
    · simp [before, h]
    · simp [before, h, ih]; exact fun e => h e.symm

theorem before_of_not_mem {c : Char} {l : Str} (h : c ∉ l) : before c l = l := by
  induction l with
  | nil => rfl
  | cons x xs ih =>
    simp only [List.mem_cons, not_or] at h
    simp [before, Ne.symm h.1, ih h.2]

theorem since_of_not_mem {c : Char} {l : Str} (h : c ∉ l) : since c l = [] := by
  induction l with
  | nil => rfl
  | cons x xs ih =>
    simp only [List.mem_cons, not_or] at h
    simp [since, Ne.symm h.1, ih h.2]

theorem before_append_of_not_mem {c : Char} {a : Str} (b : Str) (h : c ∉ a) :
    before c (a ++ b) = a ++ before c b := by
  induction a with
  | nil => rfl
  | cons x xs ih =>
    simp only [List.mem_cons, not_or] at h
    simp [before, Ne.symm h.1, ih h.2]

theorem since_append_of_not_mem {c : Char} {a : Str} (b : Str) (h : c ∉ a) :
    since c (a ++ b) = since c b := by
  induction a with
  | nil => rfl
  | cons x xs ih =>
    simp only [List.mem_cons, not_or] at h
    simp [since, Ne.symm h.1, ih h.2]

theorem before_cons_self (c : Char) (l : Str) : before c (c :: l) = [] := by
  simp [before]

theorem since_cons_self (c : Char) (l : Str) : since c (c :: l) = c :: l := by
  simp [since]

theorem since_eq_cons_of_mem {c : Char} {l : Str} (h : c ∈ l) :
    since c l = c :: (since c l).tail := by
  induction l with
  | nil => simp at h
  | cons x xs ih =>
    by_cases hx : x = c
    · simp [since, hx]
    · have : c ∈ xs := by
        rcases List.mem_cons.1 h with e | e
        · exact absurd e.symm hx
        · exact e
      simpa [since, hx] using ih this

theorem since_head (c : Char) (l : Str) : since c l = [] ∨ (since c l).head? = some c := by
  by_cases h : c ∈ l
  · right; rw [since_eq_cons_of_mem h]; rfl
  · left; exact since_of_not_mem h

theorem mem_of_since_ne_nil {c : Char} {l : Str} (h : since c l ≠ []) : c ∈ l := by
  by_contra hc
  exact h (since_of_not_mem hc)

theorem length_before_le (c : Char) (l : Str) : (before c l).length ≤ l.length := by
  have h := congrArg List.length (before_append_since c l)
  simp only [List.length_append] at h
  omega

theorem length_before_lt {c : Char} {l : Str} (h : c ∈ l) :
    (before c l).length < l.length := by
  have h1 := congrArg List.length (before_append_since c l)
  rw [since_eq_cons_of_mem h] at h1
  simp only [List.length_append, List.length_cons] at h1
  omega

theorem take_length_before (c : Char) (l : Str) :
    l.take (before c l).length = before c l := by
  have h := List.take_left (before c l) (since c l)
  rwa [before_append_since] at h

theorem drop_length_before (c : Char) (l : Str) :
    l.drop (before c l).length = since c l := by
  have h := List.drop_left (before c l) (since c l)
  rwa [before_append_since] at h

theorem find_char_from_eq (c : Char) (l : Str) (i : Nat) :
    find_char_from c l i = if c ∈ l then some (i + (before c l).length) else none := by
  induction l generalizing i with
  | nil => simp [find_char_from]
  | cons x xs ih =>
    by_cases h : x = c
    · simp [find_char_from, before, h]
    · have h2 : ¬ c = x := fun e => h e.symm
      simp only [find_char_from, before, h, if_false, ih, List.mem_cons, h2, false_or,
        List.length_cons]
      split <;> simp; omega

theorem find_char_eq (s : Str) (c : Char) (pos : Nat) :
    find_char s c pos =
      if c ∈ s.drop pos then some (pos + (before c (s.drop pos)).length) else none := by
  simp [find_char, find_char_from_eq]

theorem before_since (c : Char) (l : Str) : before c (since c l) = [] := by
  by_cases h : c ∈ l
  · rw [since_eq_cons_of_mem h, before_cons_self]
  · rw [since_of_not_mem h]; rfl

theorem mem_iff_since_ne_nil (c : Char) (l : Str) : c ∈ l ↔ since c l ≠ [] := by
  constructor
  · intro h e
    rw [since_eq_cons_of_mem h] at e
    exact List.cons_ne_nil _ _ e
  · exact mem_of_since_ne_nil

/-! Positions at or after `hs`, read in the text `input.drop hs`. -/

theorem drop_rel (input : Str) (hs k : Nat) :
    input.drop (hs + k) = (input.drop hs).drop k := by
  rw [List.drop_drop, Nat.add_comm]

theorem length_drop_rel (input : Str) (hs : Nat) (h : hs ≤ input.length) :
    hs + (input.drop hs).length = input.length := by
  rw [List.length_drop]; omega

theorem substr_rel (input : Str) (hs k n : Nat) (h : hs ≤ input.length)
    (hk : k ≤ (input.drop hs).length) :
    substr input (hs + k) n = some (((input.drop hs).drop k).take n) := by
  have := length_drop_rel input hs h
  have h2 : hs + k ≤ input.length := by omega
  unfold substr
  rw [if_pos h2, drop_rel]

theorem substr_from_rel (input : Str) (hs k : Nat) (h : hs ≤ input.length)
    (hk : k ≤ (input.drop hs).length) :
    substr_from input (hs + k) = some ((input.drop hs).drop k) := by
  have := length_drop_rel input hs h
  have h2 : hs + k ≤ input.length := by omega
  unfold substr_from
  rw [if_pos h2, drop_rel]

theorem find_char_rel (input : Str) (c : Char) (hs k : Nat) :
    find_char input c (hs + k) =
      if c ∈ (input.drop hs).drop k
      then some (hs + k + (before c ((input.drop hs).drop k)).length) else none := by
  rw [find_char_eq, drop_rel]

theorem char_at_is_rel (input : Str) (c : Char) (hs k : Nat) :
    char_at_is input (hs + k) c = some (decide (((input.drop hs).drop k).head? = some c)) := by
  unfold char_at_is index
  rw [← drop_rel]
  by_cases h : hs + k < input.length
  · rw [if_pos h, List.getElem?_eq_getElem h, List.drop_eq_getElem_cons h]
    simp only [List.head?_cons, Option.some.injEq, Option.map_some']
    by_cases e : input[hs + k] = c <;> simp [e]
  · rw [if_neg h, List.drop_eq_nil_of_le (by omega)]
    simp

theorem host_and_path_rel (input : Str) (out : Url) (error : Str) (p : Nat)
    (h : p ≤ input.length) :
    host_and_path input out error (find_char input '/' p) =
      some (if out.host.isEmpty then ⟨false, out, "Invalid URL: empty host".toList⟩
        else finalize_defaults
          { out with path := path_of (since '/' (input.drop p)) } error) := by
  unfold host_and_path
  by_cases he : out.host.isEmpty = true
  · simp [he]
  · simp only [he, if_false]
    rw [find_char_eq]
    by_cases hm : '/' ∈ input.drop p
    · have hlt := length_before_lt hm
      have hne := (mem_iff_since_ne_nil _ _).1 hm
      rw [if_pos hm]
      simp only []
      rw [substr_from_rel input p _ h (Nat.le_of_lt hlt), drop_length_before]
      simp [path_of, hne]
    · rw [if_neg hm, since_of_not_mem hm]
      simp [path_of]

/-! Two delimiters: `c` inside the region that ends at the first `d`. -/

theorem mem_before_iff {c d : Char} (hcd : c ≠ d) (l : Str) :
    c ∈ before d l ↔ c ∈ l ∧ (before c l).length < (before d l).length := by
  induction l with
  | nil => simp [before]
  | cons x xs ih =>
    by_cases hd : x = d
    · simp [before, hd]
    · by_cases hc : x = c
      · subst hc
        simp [before, hcd]
      · have hc2 : ¬ c = x := fun e => hc e.symm
        simp [before, hd, hc, hc2, ih]

theorem before_append_of_mem {c : Char} {a : Str} (b : Str) (h : c ∈ a) :
    before c (a ++ b) = before c a := by
  induction a with
  | nil => simp at h
  | cons x xs ih =>
    by_cases hx : x = c
    · simp [before, hx]
    · have : c ∈ xs := by
        rcases List.mem_cons.1 h with e | e
        · exact absurd e.symm hx
        · exact e
      simp [before, hx, ih this]

theorem before_before {c d : Char} {l : Str} (h : c ∈ before d l) :
    before c (before d l) = before c l := by
  have e := before_append_of_mem (since d l) h
  rw [before_append_since] at e
  exact e.symm

theorem port_text {c d : Char} {l : Str} (h : c ∈ before d l) :
    (l.drop ((before c l).length + 1)).take
        ((before d l).length - ((before c l).length + 1)) =
      (since c (before d l)).tail := by
  have e1 : before c l ++ c :: (since c (before d l)).tail = before d l := by
    rw [← since_eq_cons_of_mem h, ← before_before h, before_append_since]
  have e2 : l = before c l ++ (c :: (since c (before d l)).tail ++ since d l) := by
    conv_lhs => rw [← before_append_since d l, ← e1]
    simp
  have e3 : (before d l).length = (before c l).length + 1 +
      ((since c (before d l)).tail).length := by
    conv_lhs => rw [← e1]
    simp
    omega
  have e4 : l.drop ((before c l).length + 1) = (since c (before d l)).tail ++ since d l := by
    have key : ∀ a b q : Str, (a ++ (c :: b ++ q)).drop (a.length + 1) = b ++ q := by
      intro a b q
      rw [← List.drop_drop, List.drop_left]
      rfl
    calc l.drop ((before c l).length + 1)
        = (before c l ++ (c :: (since c (before d l)).tail ++ since d l)).drop
            ((before c l).length + 1) := by rw [← e2]
      _ = _ := key _ _ _
  rw [e4, e3, Nat.add_sub_cancel_left, List.take_left]

theorem host_end_eq (input : Str) (hs : Nat) (h : hs ≤ input.length) :
    (match find_char input '/' hs with
      | none => input.length
      | some ps => ps) = hs + (before '/' (input.drop hs)).length := by
  rw [find_char_eq]
  by_cases hm : '/' ∈ input.drop hs
  · rw [if_pos hm]
  · rw [if_neg hm, before_of_not_mem hm]
    exact (length_drop_rel input hs h).symm

/-! ## The code computes the position-free description -/

theorem substr_at (input : Str) (p n : Nat) (h : p ≤ input.length) :
    substr input p n = some ((input.drop p).take n) := by
  unfold substr
  rw [if_pos h]

theorem bare_host_rel (input : Str) (out : Url) (error : Str) (hs : Nat)
    (h : hs ≤ input.length) :
    bare_host input out error hs = some (bare_rest out (input.drop hs) error) := by
  have hlen := length_drop_rel input hs h
  have hle := length_before_le '/' (input.drop hs)
  simp only [bare_host, bare_rest]
  rw [host_end_eq input hs h, find_char_eq input ':' hs]
  by_cases hc : ':' ∈ input.drop hs
  · rw [if_pos hc]
    simp only []
    by_cases hr : ':' ∈ before '/' (input.drop hs)
    · have hlt := ((mem_before_iff (by decide) _).1 hr).2
      rw [if_pos (by omega), if_pos hr, substr_at input hs _ h,
        substr_at input (hs + (before ':' (input.drop hs)).length + 1) _ (by omega)]
      simp only [Option.bind_eq_bind, Option.some_bind]
      rw [host_and_path_rel input _ error hs h, Nat.add_sub_cancel_left, take_length_before,
        Nat.add_assoc, drop_rel, Nat.add_sub_add_left, port_text hr, before_before hr]
    · have hnlt : ¬ (before ':' (input.drop hs)).length < (before '/' (input.drop hs)).length :=
        fun hlt => hr ((mem_before_iff (by decide) _).2 ⟨hc, hlt⟩)
      rw [if_neg (by omega), if_neg hr, substr_at input hs _ h]
      simp only [Option.bind_eq_bind, Option.some_bind]
      rw [host_and_path_rel input _ error hs h, Nat.add_sub_cancel_left, take_length_before]
  · have hr : ':' ∉ before '/' (input.drop hs) := fun hr =>
      hc ((mem_before_iff (by decide) _).1 hr).1
    rw [if_neg hc, if_neg hr]
    simp only []
    rw [substr_at input hs _ h]
    simp only [Option.bind_eq_bind, Option.some_bind]
    rw [host_and_path_rel input _ error hs h, Nat.add_sub_cancel_left, take_length_before]

theorem take_succ_before {c : Char} {l : Str} (h : c ∈ l) :
    l.take ((before c l).length + 1) = before c l ++ [c] := by
  have key : ∀ a b : Str, (a ++ c :: b).take (a.length + 1) = a ++ [c] := by
    intro a b
    rw [List.take_append]
    rfl
  calc l.take ((before c l).length + 1)
      = (before c l ++ c :: (since c l).tail).take ((before c l).length + 1) := by
        rw [← since_eq_cons_of_mem h, before_append_since]
    _ = _ := key _ _

theorem drop_succ_before (c : Char) (l : Str) :
    l.drop ((before c l).length + 1) = (since c l).tail := by
  rw [← List.drop_drop, drop_length_before]
  cases since c l <;> rfl

theorem host_and_path_some (input : Str) (out : Url) (error : Str) (ps : Nat)
    (hh : out.host.isEmpty = false) (h : ps ≤ input.length) :
    host_and_path input out error (some ps) =
      some (finalize_defaults { out with path := path_of (input.drop ps) } error) := by
  simp [host_and_path, hh, substr_from, h, path_of]

theorem bracketed_host_rel (input : Str) (out : Url) (error : Str) (hs : Nat)
    (h : hs ≤ input.length) :
    bracketed_host input out error hs =
      some (bracketed_rest out (input.drop hs) error) := by
  have hlen := length_drop_rel input hs h
  simp only [bracketed_host, bracketed_rest]
  rw [find_char_eq input ']' hs]
  by_cases hm : ']' ∈ input.drop hs
  · have hb := length_before_lt hm
    have hT : input.drop (hs + (before ']' (input.drop hs)).length + 1) =
        (since ']' (input.drop hs)).tail := by
      rw [Nat.add_assoc, drop_rel, drop_succ_before]
    rw [if_pos hm, if_pos hm]
    simp only []
    rw [substr_at input hs _ h, Nat.add_assoc hs, char_at_is_rel, drop_succ_before]
    simp only [Option.bind_eq_bind, Option.some_bind]
    rw [Nat.add_sub_cancel_left, take_succ_before hm]
    by_cases hcol : ((since ']' (input.drop hs)).tail).head? = some ':'
    · rw [if_pos hcol]
      simp only [hcol, decide_True, if_true]
      have hT2 : input.drop (hs + (before ']' (input.drop hs)).length + 2) =
          ((since ']' (input.drop hs)).tail).tail := by
        rw [← hT, List.tail_drop]
      have hTlen : hs + (before ']' (input.drop hs)).length + 2 ≤ input.length := by
        have e := congrArg List.length hT
        rw [List.length_drop] at e
        cases hc : (since ']' (input.drop hs)).tail with
        | nil => rw [hc] at hcol; simp at hcol
        | cons x xs => rw [hc] at e; simp at e; omega
      rw [find_char_eq input '/', hT2]
      by_cases hp : '/' ∈ ((since ']' (input.drop hs)).tail).tail
      · have hlt := length_before_lt hp
        have e := congrArg List.length hT2
        rw [List.length_drop] at e
        rw [if_pos hp]
        simp only []
        rw [substr_at input _ _ hTlen, hT2]
        simp only [Option.some_bind]
        rw [host_and_path_some input _ error _ (by simp) (by omega), Nat.add_sub_cancel_left,
          take_length_before, drop_rel, hT2, drop_length_before]
      · rw [if_neg hp]
        simp only []
        rw [substr_from, if_pos hTlen, hT2, before_of_not_mem hp, since_of_not_mem hp]
        rfl
    · rw [if_neg hcol]
      simp only [hcol, decide_False]
      rw [if_neg (by simp), host_and_path_rel input _ error _ (by omega), ← Nat.add_assoc, hT]
      simp
  · rw [if_neg hm, if_neg hm]

/-! ## The separator -/

theorem starts_with_iff (pat s : Str) : starts_with pat s = true ↔ ∃ t, s = pat ++ t := by
  induction pat generalizing s with
  | nil => simp [starts_with]
  | cons p ps ih =>
    cases s with
    | nil => simp [starts_with]
    | cons c cs =>
      simp only [starts_with, Bool.and_eq_true, beq_iff_eq, ih, List.cons_append,
        List.cons.injEq]
      constructor
      · rintro ⟨e, t, ht⟩
        exact ⟨t, e.symm, ht⟩
      · rintro ⟨t, e, ht⟩
        exact ⟨e.symm, t, ht⟩

theorem find_str_from_some (pat l : Str) (i k : Nat) (h : find_str_from pat l i = some k) :
    ∃ n, k = i + n ∧ n ≤ l.length ∧ starts_with pat (l.drop n) = true ∧
      ∀ j, j < n → starts_with pat (l.drop j) = false := by
  induction l generalizing i with
  | nil =>
    by_cases hp : pat = []
    · simp only [find_str_from, hp, if_true, Option.some.injEq] at h
      exact ⟨0, by omega, by simp, by simp [hp, starts_with], by simp⟩
    · simp [find_str_from, hp] at h
  | cons c cs ih =>
    by_cases hs : starts_with pat (c :: cs) = true
    · simp only [find_str_from, hs, if_true, Option.some.injEq] at h
      exact ⟨0, by omega, by simp, by simpa using hs, by simp⟩
    · simp only [find_str_from, hs, if_false] at h
      obtain ⟨n, hk, hn, hst, hmin⟩ := ih (i + 1) h
      refine ⟨n + 1, by omega, by simp; omega, by simpa using hst, ?_⟩
      intro j hj
      cases j with
      | zero => simpa using hs
      | succ j => simpa using hmin j (by omega)

theorem find_str_from_none (pat l : Str) (i : Nat) (h : find_str_from pat l i = none) :
    ∀ j, starts_with pat (l.drop j) = false := by
  induction l generalizing i with
  | nil =>
    by_cases hp : pat = []
    · simp [find_str_from, hp] at h
    · intro j
      cases pat with
      | nil => exact absurd rfl hp
      | cons p ps => simp [starts_with]
  | cons c cs ih =>
    by_cases hs : starts_with pat (c :: cs) = true
    · simp [find_str_from, hs] at h
    · simp only [find_str_from, hs, if_false] at h
      intro j
      cases j with
      | zero => simpa using hs
      | succ j => simpa using ih (i + 1) h j

/-- Position `pos` is where the first `://` of `input` starts. -/
def FirstSep (input : Str) (pos : Nat) : Prop :=
  (∃ t, input.drop pos = "://".toList ++ t) ∧
    ∀ j, j < pos → ¬ ∃ t, input.drop j = "://".toList ++ t

theorem find_str_sep_some {input : Str} {pos : Nat}
    (h : find_str input "://".toList 0 = some pos) :
    FirstSep input pos ∧ pos + 3 ≤ input.length := by
  simp only [find_str, Nat.zero_le, if_true, List.drop_zero] at h
  obtain ⟨n, hk, hn, hst, hmin⟩ := find_str_from_some _ _ _ _ h
  have hp : pos = n := by omega
  subst hp
  obtain ⟨t, ht⟩ := (starts_with_iff _ _).1 hst
  refine ⟨⟨⟨t, ht⟩, ?_⟩, ?_⟩
  · intro j hj hex
    have := hmin j hj
    rw [(starts_with_iff _ _).2 hex] at this
    exact Bool.noConfusion this
  · have e := congrArg List.length ht
    rw [List.length_drop, List.length_append] at e
    have : ("://".toList).length = 3 := rfl
    omega

theorem find_str_sep_iff (input : Str) (pos : Nat) :
    find_str input "://".toList 0 = some pos ↔ FirstSep input pos := by
  constructor
  · exact fun h => (find_str_sep_some h).1
  · intro hp
    cases hf : find_str input "://".toList 0 with
    | none =>
      simp only [find_str, Nat.zero_le, if_true, List.drop_zero] at hf
      have := find_str_from_none _ _ _ hf pos
      rw [(starts_with_iff _ _).2 hp.1] at this
      exact Bool.noConfusion this
    | some k =>
      have hk := (find_str_sep_some hf).1
      have h1 : ¬ k < pos := fun hlt => hp.2 k hlt hk.1
      have h2 : ¬ pos < k := fun hlt => hk.2 pos hlt hp.1
      have : k = pos := by omega
      rw [this]

/-- The code and the position-free description agree on every input, and the
code never leaves the string: `parse_url` always returns. -/
theorem parse_url_eq (input : Str) (out : Url) (error : Str) :
    parse_url input out error =
      match find_str input "://".toList 0 with
      | none => some ⟨false, out, "Invalid URL: missing '://'".toList⟩
      | some pos =>
        some (parse_rest { out with scheme := to_lower_inplace (input.take pos) }
          (input.drop (pos + 3)) error) := by
  unfold parse_url
  cases hf : find_str input "://".toList 0 with
  | none => rfl
  | some pos =>
    have hlen := (find_str_sep_some hf).2
    simp only []
    rw [substr_at input 0 pos (Nat.zero_le _)]
    simp only [Option.bind_eq_bind, Option.some_bind, List.drop_zero]
    have hc := char_at_is_rel input '[' (pos + 3) 0
    rw [Nat.add_zero, List.drop_zero] at hc
    rw [hc]
    simp only [Option.some_bind, parse_rest]
    by_cases hv : validate_scheme { out with scheme := to_lower_inplace (input.take pos) } = true
    · simp only [hv, Bool.not_true, Bool.false_eq_true, if_false]
      by_cases hb : (input.drop (pos + 3)).head? = some '['
      · simp only [hb, decide_True, if_true]
        exact bracketed_host_rel input _ error (pos + 3) hlen
      · simp only [hb, decide_False, Bool.false_eq_true, if_false]
        exact bare_host_rel input _ error (pos + 3) hlen
    · simp [hv]

theorem take_append_sep (s r : Str) : (s ++ "://".toList ++ r).take s.length = s := by
  rw [List.append_assoc, List.take_left]

theorem drop_append_sep (s r : Str) : (s ++ "://".toList ++ r).drop (s.length + 3) = r := by
  have h : (s ++ "://".toList).length = s.length + 3 := by
    rw [List.length_append]; rfl
  rw [← h, List.drop_left]

/-- The shape `S ++ "://" ++ R`, `S` being the text before the first `://`. -/
theorem parse_url_append (s r : Str) (out : Url) (error : Str)
    (h : find_str (s ++ "://".toList ++ r) "://".toList 0 = some s.length) :
    parse_url (s ++ "://".toList ++ r) out error =
      some (parse_rest { out with scheme := to_lower_inplace s } r error) := by
  rw [parse_url_eq, h]
  simp only []
  rw [take_append_sep, drop_append_sep]

theorem find_str_from_append_sep (s r : Str) (i : Nat) (h : ':' ∉ s) :
    find_str_from "://".toList (s ++ "://".toList ++ r) i = some (i + s.length) := by
  induction s generalizing i with
  | nil =>
    have : starts_with "://".toList (':' :: '/' :: '/' :: r) = true :=
      (starts_with_iff _ _).2 ⟨r, rfl⟩
    change find_str_from "://".toList (':' :: ('/' :: '/' :: r)) i = _
    rw [find_str_from, if_pos this]
    rfl
  | cons x xs ih =>
    simp only [List.mem_cons, not_or] at h
    have hx : starts_with "://".toList (x :: (xs ++ "://".toList ++ r)) = false := by
      change starts_with (':' :: "//".toList) (x :: (xs ++ "://".toList ++ r)) = false
      simp [starts_with, h.1]
    change find_str_from "://".toList (x :: (xs ++ "://".toList ++ r)) i = _
    rw [find_str_from, hx]
    simp only [Bool.false_eq_true, if_false]
    rw [ih (i + 1) h.2, List.length_cons]
    congr 1
    omega

theorem find_str_append_sep (s r : Str) (h : ':' ∉ s) :
    find_str (s ++ "://".toList ++ r) "://".toList 0 = some s.length := by
  simp only [find_str, Nat.zero_le, if_true, List.drop_zero]
  rw [find_str_from_append_sep s r 0 h, Nat.zero_add]

/-! ## Schemes, digits, and the shapes of the text after `://` -/

/-- Only the characters `0`..`9`. -/
def IsDigits (p : Str) : Prop :=
  ∀ c ∈ p, '0' ≤ c ∧ c ≤ '9'

/-- Text that can follow host and port: nothing, or a path starting with `/`. -/
def PathText (q : Str) : Prop :=
  q = [] ∨ q.head? = some '/'

/-- The text `":" ++ p` of an explicit port, nothing when the port is absent. -/
def opt_port : Option Str → Str
  | none => []
  | some p => ':' :: p

/-- The text of an explicit path, nothing when the path is absent. -/
def opt_path : Option Str → Str
  | none => []
  | some q => q

theorem isdigit_iff (c : Char) : isdigit c = true ↔ '0' ≤ c ∧ c ≤ '9' := by
  simp only [isdigit, decide_eq_true_eq, Char.le_def, UInt32.le_def, Char.toNat]
  exact Iff.rfl

theorem all_isdigit_iff (p : Str) : p.all isdigit = true ↔ IsDigits p := by
  simp only [List.all_eq_true, isdigit_iff, IsDigits]

theorem IsDigits.slash_not_mem {p : Str} (h : IsDigits p) : '/' ∉ p := by
  intro hm
  have := h _ hm
  revert this
  decide

theorem IsDigits.colon_not_mem {p : Str} (h : IsDigits p) : ':' ∉ p := by
  intro hm
  have := h _ hm
  revert this
  decide

theorem tolower_colon : tolower ':' = ':' := by decide

theorem colon_not_mem_of_scheme {s : Str}
    (h : to_lower_inplace s = "http".toList ∨ to_lower_inplace s = "https".toList) :
    ':' ∉ s := by
  intro hm
  have h2 : ':' ∈ to_lower_inplace s := by
    have := List.mem_map_of_mem tolower hm
    rwa [tolower_colon] at this
  rcases h with h | h <;> rw [h] at h2 <;> revert h2 <;> decide

theorem validate_scheme_iff (u : Url) :
    validate_scheme u = true ↔ u.scheme = "http".toList ∨ u.scheme = "https".toList := by
  unfold validate_scheme
  by_cases h1 : u.scheme = "https".toList
  · rw [if_pos h1]
    exact ⟨fun _ => Or.inr h1, fun _ => rfl⟩
  · by_cases h2 : u.scheme = "http".toList
    · rw [if_neg h1, if_pos h2]
      exact ⟨fun _ => Or.inl h2, fun _ => rfl⟩
    · rw [if_neg h1, if_neg h2]
      exact ⟨fun h => Bool.noConfusion h, fun h => h.elim (absurd · h2) (absurd · h1)⟩

theorem PathText.since_eq {q : Str} (h : PathText q) : since '/' q = q := by
  rcases h with h | h
  · rw [h]; rfl
  · cases q with
    | nil => rfl
    | cons x xs =>
      simp only [List.head?_cons, Option.some.injEq] at h
      rw [h, since_cons_self]

theorem PathText.before_eq {q : Str} (h : PathText q) : before '/' q = [] := by
  rw [← h.since_eq, before_since]

theorem PathText.head_ne_colon {q : Str} (h : PathText q) : q.head? ≠ some ':' := by
  rcases h with h | h
  · rw [h]; simp
  · rw [h]; decide

theorem PathText.of_since (l : Str) : PathText (since '/' l) :=
  since_head '/' l

theorem path_of_ne_nil (q : Str) : path_of q ≠ [] := by
  unfold path_of
  cases q with
  | nil => simp
  | cons x xs => simp

theorem path_of_head {q : Str} (h : PathText q) : (path_of q).head? = some '/' := by
  rcases h with h | h
  · rw [h]; rfl
  · cases q with
    | nil => simp at h
    | cons x xs => simpa [path_of] using h

/-! What `finalize_defaults` returns. -/

theorem finalize_defaults_digits (out : Url) (error : Str)
    (hne : out.port ≠ []) (hd : IsDigits out.port) :
    finalize_defaults out error = ⟨true, out, error⟩ := by
  have h1 : out.port.isEmpty = false := by
    cases hp : out.port with
    | nil => exact absurd hp hne
    | cons x xs => rfl
  have h2 : out.port.all isdigit = true := (all_isdigit_iff _).2 hd
  simp only [finalize_defaults, validate_port, h1, h2, Bool.false_eq_true, if_false,
    Bool.not_true]

theorem finalize_defaults_empty (out : Url) (error : Str) (hp : out.port = [])
    (hs : out.scheme = "http".toList ∨ out.scheme = "https".toList) :
    finalize_defaults out error =
      ⟨true, { out with port := default_port out.scheme }, error⟩ := by
  rcases hs with hs | hs <;>
    simp [finalize_defaults, validate_port, hp, hs, default_port] <;> decide

theorem finalize_defaults_bad (out : Url) (error : Str)
    (hd : ¬ IsDigits out.port) :
    finalize_defaults out error = ⟨false, out, "Invalid port: ".toList ++ out.port⟩ := by
  have h1 : out.port.isEmpty = false := by
    cases hp : out.port with
    | nil => exact absurd (by rw [hp]; intro c hc; simp at hc) hd
    | cons x xs => rfl
  have h2 : out.port.all isdigit = false := by
    rw [← Bool.not_eq_true, all_isdigit_iff]
    exact hd
  simp only [finalize_defaults, validate_port, h1, h2, Bool.false_eq_true, if_false,
    Bool.not_false, if_true]

/-! What the two branches return on text of a known shape. -/

theorem isEmpty_false_of_ne_nil {l : Str} (h : l ≠ []) : l.isEmpty = false := by
  cases l with
  | nil => exact absurd rfl h
  | cons x xs => rfl

theorem bare_rest_port_gen (out : Url) (error : Str) (hst p q : Str)
    (hc : ':' ∉ hst) (hs : '/' ∉ hst) (hp : '/' ∉ p) (hq : PathText q) :
    bare_rest out (hst ++ ':' :: (p ++ q)) error =
      if hst.isEmpty then
        ⟨false, { out with host := hst, port := p }, "Invalid URL: empty host".toList⟩
      else
        finalize_defaults { out with host := hst, port := p, path := path_of q } error := by
  have hreg : before '/' (hst ++ ':' :: (p ++ q)) = hst ++ ':' :: p := by
    rw [before_append_of_not_mem _ hs]
    have : before '/' (':' :: (p ++ q)) = ':' :: before '/' (p ++ q) := by
      simp [before]
    rw [this, before_append_of_not_mem _ hp, hq.before_eq, List.append_nil]
  have hsin : since '/' (hst ++ ':' :: (p ++ q)) = q := by
    rw [since_append_of_not_mem _ hs]
    have : since '/' (':' :: (p ++ q)) = since '/' (p ++ q) := by
      simp [since]
    rw [this, since_append_of_not_mem _ hp, hq.since_eq]
  have hmem : ':' ∈ hst ++ ':' :: p := by simp
  have hb : before ':' (hst ++ ':' :: p) = hst := by
    rw [before_append_of_not_mem _ hc, before_cons_self, List.append_nil]
  have hsc : since ':' (hst ++ ':' :: p) = ':' :: p := by
    rw [since_append_of_not_mem _ hc, since_cons_self]
  simp only [bare_rest, hreg, hsin, hmem, if_true, hb, hsc, List.tail_cons]

theorem bare_rest_no_port_gen (out : Url) (error : Str) (hst q : Str)
    (hc : ':' ∉ hst) (hs : '/' ∉ hst) (hq : PathText q) :
    bare_rest out (hst ++ q) error =
      if hst.isEmpty then
        ⟨false, { out with host := hst }, "Invalid URL: empty host".toList⟩
      else
        finalize_defaults { out with host := hst, path := path_of q } error := by
  have hreg : before '/' (hst ++ q) = hst := by
    rw [before_append_of_not_mem _ hs, hq.before_eq, List.append_nil]
  have hsin : since '/' (hst ++ q) = q := by
    rw [since_append_of_not_mem _ hs, hq.since_eq]
  simp only [bare_rest, hreg, hsin, hc, if_false]

theorem bare_rest_port (out : Url) (error : Str) (hst p q : Str)
    (hne : hst ≠ []) (hc : ':' ∉ hst) (hs : '/' ∉ hst) (hp : '/' ∉ p) (hq : PathText q) :
    bare_rest out (hst ++ ':' :: (p ++ q)) error =
      finalize_defaults { out with host := hst, port := p, path := path_of q } error := by
  rw [bare_rest_port_gen out error hst p q hc hs hp hq, isEmpty_false_of_ne_nil hne]
  rfl

theorem bare_rest_no_port (out : Url) (error : Str) (hst q : Str)
    (hne : hst ≠ []) (hc : ':' ∉ hst) (hs : '/' ∉ hst) (hq : PathText q) :
    bare_rest out (hst ++ q) error =
      finalize_defaults { out with host := hst, path := path_of q } error := by
  rw [bare_rest_no_port_gen out error hst q hc hs hq, isEmpty_false_of_ne_nil hne]
  rfl

theorem bracket_split (b t : Str) (hb : ']' ∉ b) :
    ']' ∈ '[' :: (b ++ ']' :: t) ∧ before ']' ('[' :: (b ++ ']' :: t)) = '[' :: b ∧
      (since ']' ('[' :: (b ++ ']' :: t))).tail = t := by
  have h1 : before ']' ('[' :: (b ++ ']' :: t)) = '[' :: before ']' (b ++ ']' :: t) := by
    simp [before]
  have h2 : since ']' ('[' :: (b ++ ']' :: t)) = since ']' (b ++ ']' :: t) := by
    simp [since]
  refine ⟨by simp, ?_, ?_⟩
  · rw [h1, before_append_of_not_mem _ hb, before_cons_self, List.append_nil]
  · rw [h2, since_append_of_not_mem _ hb, since_cons_self, List.tail_cons]

theorem bracketed_rest_port (out : Url) (error : Str) (b p q : Str)
    (hb : ']' ∉ b) (hp : '/' ∉ p) (hq : PathText q) :
    bracketed_rest out ('[' :: (b ++ ']' :: ':' :: (p ++ q))) error =
      finalize_defaults
        { out with host := '[' :: (b ++ [']']), port := p, path := path_of q } error := by
  obtain ⟨h1, h2, h3⟩ := bracket_split b (':' :: (p ++ q)) hb
  have h4 : before '/' (p ++ q) = p := by
    rw [before_append_of_not_mem _ hp, hq.before_eq, List.append_nil]
  have h5 : since '/' (p ++ q) = q := by
    rw [since_append_of_not_mem _ hp, hq.since_eq]
  simp only [bracketed_rest, h1, if_true, h2, h3, List.head?_cons, List.tail_cons, h4, h5,
    List.cons_append]

theorem bracketed_rest_no_port (out : Url) (error : Str) (b j q : Str)
    (hb : ']' ∉ b) (hj : '/' ∉ j) (hjc : j.head? ≠ some ':') (hq : PathText q) :
    bracketed_rest out ('[' :: (b ++ ']' :: (j ++ q))) error =
      finalize_defaults { out with host := '[' :: (b ++ [']']), path := path_of q } error := by
  obtain ⟨h1, h2, h3⟩ := bracket_split b (j ++ q) hb
  have h5 : since '/' (j ++ q) = q := by
    rw [since_append_of_not_mem _ hj, hq.since_eq]
  have h6 : (j ++ q).head? ≠ some ':' := by
    cases j with
    | nil => simpa using hq.head_ne_colon
    | cons x xs => simpa using hjc
  simp only [bracketed_rest, h1, if_true, h2, h3, h6, if_false, h5, List.cons_append]

theorem bracketed_rest_unterminated (out : Url) (error : Str) (rest : Str)
    (h : ']' ∉ rest) :
    bracketed_rest out rest error =
      ⟨false, out, "Invalid URL: missing closing ']' for IPv6 address".toList⟩ := by
  simp only [bracketed_rest, h, if_false]

theorem parse_rest_bare (out : Url) (error : Str) (rest : Str)
    (hv : out.scheme = "http".toList ∨ out.scheme = "https".toList)
    (hb : rest.head? ≠ some '[') :
    parse_rest out rest error = bare_rest out rest error := by
  simp only [parse_rest, (validate_scheme_iff out).2 hv, Bool.not_true, Bool.false_eq_true,
    if_false, hb]

theorem parse_rest_bracketed (out : Url) (error : Str) (rest : Str)
    (hv : out.scheme = "http".toList ∨ out.scheme = "https".toList)
    (hb : rest.head? = some '[') :
    parse_rest out rest error = bracketed_rest out rest error := by
  simp only [parse_rest, (validate_scheme_iff out).2 hv, Bool.not_true, Bool.false_eq_true,
    if_false, hb, if_true]

theorem parse_rest_bad_scheme (out : Url) (error : Str) (rest : Str)
    (hv : ¬ (out.scheme = "http".toList ∨ out.scheme = "https".toList)) :
    parse_rest out rest error = ⟨false, out, error⟩ := by
  have : validate_scheme out = false := by
    rw [← Bool.not_eq_true, validate_scheme_iff]
    exact hv
  simp only [parse_rest, this, Bool.not_false, if_true]

instance (p : Str) : Decidable (IsDigits p) := by
  unfold IsDigits
  infer_instance

theorem opt_path_pathText {q : Option Str} (h : ∀ x, q = some x → x.head? = some '/') :
    PathText (opt_path q) := by
  cases q with
  | none => exact Or.inl rfl
  | some x => exact Or.inr (h x rfl)

theorem path_of_opt_path {q : Option Str} (h : ∀ x, q = some x → x.head? = some '/') :
    path_of (opt_path q) = q.getD "/".toList := by
  cases q with
  | none => rfl
  | some x =>
    have := h x rfl
    cases x with
    | nil => simp at this
    | cons c cs => rfl

theorem head_append_of_ne_nil {a : Str} (b : Str) (h : a ≠ []) :
    (a ++ b).head? = a.head? := by
  cases a with
  | nil => exact absurd rfl h
  | cons x xs => rfl

/-- A bare host followed by an optional port text and a path text: what
`parse_url` hands to `finalize_defaults`. -/
theorem parse_url_bare_shape (s hst : Str) (pp : Option Str) (q : Str) (out : Url)
    (error : Str)
    (hS : to_lower_inplace s = "http".toList ∨ to_lower_inplace s = "https".toList)
    (hne : hst ≠ []) (hc : ':' ∉ hst) (hs : '/' ∉ hst) (hbr : hst.head? ≠ some '[')
    (hpp : ∀ p, pp = some p → '/' ∉ p) (hq : PathText q) :
    parse_url (s ++ "://".toList ++ (hst ++ opt_port pp ++ q)) out error =
      some (finalize_defaults
        ⟨to_lower_inplace s, hst, pp.getD out.port, path_of q⟩ error) := by
  rw [parse_url_append _ _ _ _ (find_str_append_sep _ _ (colon_not_mem_of_scheme hS)),
    parse_rest_bare _ _ _ hS (by rw [List.append_assoc, head_append_of_ne_nil _ hne]; exact hbr)]
  cases pp with
  | none =>
    simp only [opt_port, List.append_nil, Option.getD_none]
    rw [bare_rest_no_port _ _ _ _ hne hc hs hq]
  | some p =>
    simp only [opt_port, Option.getD_some]
    rw [List.append_assoc, List.cons_append, bare_rest_port _ _ _ _ _ hne hc hs (hpp p rfl) hq]

/-- A bracketed host followed by an optional port text and a path text: what
`parse_url` hands to `finalize_defaults`. -/
theorem parse_url_bracketed_shape (s b : Str) (pp : Option Str) (q : Str) (out : Url)
    (error : Str)
    (hS : to_lower_inplace s = "http".toList ∨ to_lower_inplace s = "https".toList)
    (hb : ']' ∉ b) (hpp : ∀ p, pp = some p → '/' ∉ p) (hq : PathText q) :
    parse_url (s ++ "://".toList ++ ('[' :: (b ++ ']' :: (opt_port pp ++ q)))) out error =
      some (finalize_defaults
        ⟨to_lower_inplace s, '[' :: (b ++ [']']), pp.getD out.port, path_of q⟩ error) := by
  rw [parse_url_append _ _ _ _ (find_str_append_sep _ _ (colon_not_mem_of_scheme hS)),
    parse_rest_bracketed _ _ ('[' :: (b ++ ']' :: (opt_port pp ++ q))) hS rfl]
  cases pp with
  | none =>
    have := bracketed_rest_no_port { out with scheme := to_lower_inplace s } error b [] q hb
      (by simp) (by simp) hq
    simp only [opt_port, List.nil_append, Option.getD_none]
    rw [List.nil_append] at this
    rw [this]
  | some p =>
    simp only [opt_port, Option.getD_some, List.cons_append]
    rw [bracketed_rest_port _ _ _ _ _ hb (hpp p rfl) hq]

theorem finalize_defaults_opt (sch hst pth : Str) (pp : Option Str) (error : Str)
    (hS : sch = "http".toList ∨ sch = "https".toList)
    (hpp : ∀ p, pp = some p → p ≠ [] ∧ IsDigits p) :
    finalize_defaults ⟨sch, hst, pp.getD Url.empty.port, pth⟩ error =
      ⟨true, ⟨sch, hst, pp.getD (default_port sch), pth⟩, error⟩ := by
  cases pp with
  | none => exact finalize_defaults_empty _ _ rfl hS
  | some p => exact finalize_defaults_digits _ _ (hpp p rfl).1 (hpp p rfl).2

/-! ## Every text after `://` has one of five shapes -/

/-- A host of the bare kind, possibly empty: no `:`, no `/`. -/
def BareText (h : Str) : Prop :=
  ':' ∉ h ∧ '/' ∉ h

theorem bare_cases (rest : Str) :
    (∃ h q, rest = h ++ q ∧ BareText h ∧ PathText q) ∨
    (∃ h p q, rest = h ++ ':' :: (p ++ q) ∧ BareText h ∧ '/' ∉ p ∧ PathText q) := by
  have hq := PathText.of_since rest
  have hr := not_mem_before '/' rest
  by_cases hc : ':' ∈ before '/' rest
  · right
    have e1 : before ':' (before '/' rest) ++ ':' :: (since ':' (before '/' rest)).tail =
        before '/' rest := by
      rw [← since_eq_cons_of_mem hc, before_append_since]
    have hh : '/' ∉ before ':' (before '/' rest) := by
      intro hm
      apply hr
      rw [← e1]
      exact List.mem_append_left _ hm
    have hp : '/' ∉ (since ':' (before '/' rest)).tail := by
      intro hm
      apply hr
      rw [← e1]
      exact List.mem_append_right _ (List.mem_cons_of_mem _ hm)
    refine ⟨before ':' (before '/' rest), (since ':' (before '/' rest)).tail, since '/' rest,
      ?_, ⟨not_mem_before _ _, hh⟩, hp, hq⟩
    conv_lhs => rw [← before_append_since '/' rest, ← e1]
    simp only [List.append_assoc, List.cons_append]
  · left
    exact ⟨before '/' rest, since '/' rest, (before_append_since _ _).symm, ⟨hc, hr⟩, hq⟩

theorem bracketed_cases (rest : Str) (hb : rest.head? = some '[') (hm : ']' ∈ rest) :
    (∃ b p q, rest = '[' :: (b ++ ']' :: ':' :: (p ++ q)) ∧ ']' ∉ b ∧ '/' ∉ p ∧ PathText q) ∨
    (∃ b j q, rest = '[' :: (b ++ ']' :: (j ++ q)) ∧ ']' ∉ b ∧ '/' ∉ j ∧
      j.head? ≠ some ':' ∧ PathText q) := by
  cases rest with
  | nil => simp at hb
  | cons x xs =>
    simp only [List.head?_cons, Option.some.injEq] at hb
    subst hb
    have hm2 : ']' ∈ xs := by
      rcases List.mem_cons.1 hm with e | e
      · exact absurd e (by decide)
      · exact e
    have e1 : xs = before ']' xs ++ ']' :: (since ']' xs).tail := by
      rw [← since_eq_cons_of_mem hm2, before_append_since]
    have hnb := not_mem_before ']' xs
    generalize before ']' xs = b at e1 hnb
    generalize (since ']' xs).tail = t at e1
    subst e1
    have e2 := (before_append_since '/' t).symm
    cases t with
    | nil => exact Or.inr ⟨b, [], [], by simp, hnb, by simp, by simp, Or.inl rfl⟩
    | cons y ys =>
      by_cases hy : y = ':'
      · subst hy
        exact Or.inl ⟨b, before '/' ys, since '/' ys, by rw [before_append_since], hnb,
          not_mem_before _ _, PathText.of_since _⟩
      · refine Or.inr ⟨b, before '/' (y :: ys), since '/' (y :: ys),
          by rw [before_append_since], hnb, not_mem_before _ _, ?_, PathText.of_since _⟩
        by_cases hs : y = '/'
        · simp [before, hs]
        · simp [before, hs, hy]

/-- What a successful `finalize_defaults` has done. -/
theorem finalize_defaults_ok {u r : Url} {error e : Str}
    (hS : u.scheme = "http".toList ∨ u.scheme = "https".toList)
    (h : finalize_defaults u error = ⟨true, r, e⟩) :
    e = error ∧ r.scheme = u.scheme ∧ r.host = u.host ∧ r.path = u.path ∧
      r.port = (if u.port = [] then default_port u.scheme else u.port) ∧
      IsDigits r.port ∧ r.port ≠ [] := by
  by_cases hp : u.port = []
  · rw [finalize_defaults_empty u error hp hS] at h
    simp only [Outcome.mk.injEq, true_and] at h
    obtain ⟨h1, h2⟩ := h
    subst h1 h2
    simp only [hp, if_true, true_and]
    rcases hS with hS | hS <;> rw [hS] <;> decide
  · by_cases hd : IsDigits u.port
    · rw [finalize_defaults_digits u error hp hd] at h
      simp only [Outcome.mk.injEq, true_and] at h
      obtain ⟨h1, h2⟩ := h
      subst h1 h2
      simp only [hp, if_false, true_and]
      exact ⟨hd, hp⟩
    · rw [finalize_defaults_bad u error hd] at h
      simp at h

theorem input_split {input : Str} {pos : Nat}
    (h : find_str input "://".toList 0 = some pos) :
    input = input.take pos ++ "://".toList ++ input.drop (pos + 3) ∧
      (input.take pos).length = pos := by
  obtain ⟨⟨⟨t, ht⟩, _⟩, hlen⟩ := find_str_sep_some h
  have e : input.drop (pos + 3) = t := by
    rw [drop_rel, ht]
    rfl
  refine ⟨?_, by rw [List.length_take]; omega⟩
  rw [e, List.append_assoc, ← ht, List.take_append_drop]

/-- The outcome of `parse_rest` for an accepted scheme, shape by shape. -/
theorem parse_rest_cases (out : Url) (rest : Str) (error : Str)
    (hS : out.scheme = "http".toList ∨ out.scheme = "https".toList) :
    (∃ h q, rest = h ++ q ∧ rest.head? ≠ some '[' ∧ BareText h ∧ PathText q ∧
      parse_rest out rest error =
        if h.isEmpty then
          ⟨false, { out with host := h }, "Invalid URL: empty host".toList⟩
        else finalize_defaults { out with host := h, path := path_of q } error) ∨
    (∃ h p q, rest = h ++ ':' :: (p ++ q) ∧ rest.head? ≠ some '[' ∧ BareText h ∧
      '/' ∉ p ∧ PathText q ∧
      parse_rest out rest error =
        if h.isEmpty then
          ⟨false, { out with host := h, port := p }, "Invalid URL: empty host".toList⟩
        else finalize_defaults { out with host := h, port := p, path := path_of q } error) ∨
    (rest.head? = some '[' ∧ ']' ∉ rest ∧
      parse_rest out rest error =
        ⟨false, out, "Invalid URL: missing closing ']' for IPv6 address".toList⟩) ∨
    (∃ b p q, rest = '[' :: (b ++ ']' :: ':' :: (p ++ q)) ∧ ']' ∉ b ∧ '/' ∉ p ∧ PathText q ∧
      parse_rest out rest error =
        finalize_defaults
          { out with host := '[' :: (b ++ [']']), port := p, path := path_of q } error) ∨
    (∃ b j q, rest = '[' :: (b ++ ']' :: (j ++ q)) ∧ ']' ∉ b ∧ '/' ∉ j ∧
      j.head? ≠ some ':' ∧ PathText q ∧
      parse_rest out rest error =
        finalize_defaults { out with host := '[' :: (b ++ [']']), path := path_of q } error) := by
  by_cases hb : rest.head? = some '['
  · rw [parse_rest_bracketed out error rest hS hb]
    by_cases hm : ']' ∈ rest
    · rcases bracketed_cases rest hb hm with ⟨b, p, q, e, h1, h2, h3⟩ | ⟨b, j, q, e, h1, h2, h3, h4⟩
      · exact Or.inr (Or.inr (Or.inr (Or.inl ⟨b, p, q, e, h1, h2, h3, by
          rw [e, bracketed_rest_port out error b p q h1 h2 h3]⟩)))
      · exact Or.inr (Or.inr (Or.inr (Or.inr ⟨b, j, q, e, h1, h2, h3, h4, by
          rw [e, bracketed_rest_no_port out error b j q h1 h2 h3 h4]⟩)))
    · exact Or.inr (Or.inr (Or.inl ⟨hb, hm, bracketed_rest_unterminated out error rest hm⟩))
  · rw [parse_rest_bare out error rest hS hb]
    rcases bare_cases rest with ⟨h, q, e, h1, h2⟩ | ⟨h, p, q, e, h1, h2, h3⟩
    · exact Or.inl ⟨h, q, e, hb, h1, h2, by
        rw [e, bare_rest_no_port_gen out error h q h1.1 h1.2 h2]⟩
    · exact Or.inr (Or.inl ⟨h, p, q, e, hb, h1, h2, h3, by
        rw [e, bare_rest_port_gen out error h p q h1.1 h1.2 h2 h3]⟩)

theorem head_ne_of_append {rest h t : Str} {c : Char} (e : rest = h ++ t)
    (hne : h ≠ []) (hr : rest.head? ≠ some c) : h.head? ≠ some c := by
  rw [e, head_append_of_ne_nil _ hne] at hr
  exact hr

theorem ne_nil_of_isEmpty_false {l : Str} (h : ¬ l.isEmpty = true) : l ≠ [] := by
  intro e
  rw [e] at h
  exact h rfl

/-- The scheme an accepted input carries, and the text after its `://`. -/
theorem parse_url_ok_scheme {input : Str} {out r : Url} {error e : Str}
    (h : parse_url input out error = some ⟨true, r, e⟩) :
    ∃ pos, find_str input "://".toList 0 = some pos ∧
      (to_lower_inplace (input.take pos) = "http".toList ∨
        to_lower_inplace (input.take pos) = "https".toList) ∧
      parse_rest { out with scheme := to_lower_inplace (input.take pos) }
        (input.drop (pos + 3)) error = ⟨true, r, e⟩ := by
  rw [parse_url_eq] at h
  cases hf : find_str input "://".toList 0 with
  | none =>
    rw [hf] at h
    simp at h
  | some pos =>
    rw [hf] at h
    simp only [Option.some.injEq] at h
    refine ⟨pos, rfl, ?_, h⟩
    by_contra hv
    rw [parse_rest_bad_scheme _ _ _ hv] at h
    simp at h

/-- The four shapes of an accepted input, each with the record handed to
`finalize_defaults`. -/
theorem parse_url_ok_cases {input : Str} {out r : Url} {error e : Str}
    (h : parse_url input out error = some ⟨true, r, e⟩) :
    ∃ s rest, input = s ++ "://".toList ++ rest ∧
      find_str input "://".toList 0 = some s.length ∧
      (to_lower_inplace s = "http".toList ∨ to_lower_inplace s = "https".toList) ∧
      ((∃ h q, rest = h ++ q ∧ h ≠ [] ∧ h.head? ≠ some '[' ∧ BareText h ∧ PathText q ∧
          finalize_defaults ⟨to_lower_inplace s, h, out.port, path_of q⟩ error =
            ⟨true, r, e⟩) ∨
        (∃ h p q, rest = h ++ ':' :: (p ++ q) ∧ h ≠ [] ∧ h.head? ≠ some '[' ∧ BareText h ∧
          '/' ∉ p ∧ PathText q ∧
          finalize_defaults ⟨to_lower_inplace s, h, p, path_of q⟩ error = ⟨true, r, e⟩) ∨
        (∃ b p q, rest = '[' :: (b ++ ']' :: ':' :: (p ++ q)) ∧ ']' ∉ b ∧ '/' ∉ p ∧
          PathText q ∧
          finalize_defaults ⟨to_lower_inplace s, '[' :: (b ++ [']']), p, path_of q⟩ error =
            ⟨true, r, e⟩) ∨
        (∃ b j q, rest = '[' :: (b ++ ']' :: (j ++ q)) ∧ ']' ∉ b ∧ '/' ∉ j ∧
          j.head? ≠ some ':' ∧ PathText q ∧
          finalize_defaults ⟨to_lower_inplace s, '[' :: (b ++ [']']), out.port, path_of q⟩
            error = ⟨true, r, e⟩)) := by
  obtain ⟨pos, hf, hv, hr⟩ := parse_url_ok_scheme h
  obtain ⟨hsplit, hlen⟩ := input_split hf
  refine ⟨input.take pos, input.drop (pos + 3), hsplit, by rw [hlen]; exact hf, hv, ?_⟩
  rcases parse_rest_cases { out with scheme := to_lower_inplace (input.take pos) }
      (input.drop (pos + 3)) error hv with
    ⟨h, q, e1, h1, h2, h3, h4⟩ | ⟨h, p, q, e1, h1, h2, h3, h4, h5⟩ | ⟨_, _, h3⟩ |
    ⟨b, p, q, e1, h1, h2, h3, h4⟩ | ⟨b, j, q, e1, h1, h2, h3, h4, h5⟩
  · rw [hr] at h4
    by_cases he : h.isEmpty = true
    · rw [if_pos he] at h4
      simp at h4
    · rw [if_neg he] at h4
      have hne := ne_nil_of_isEmpty_false he
      exact Or.inl ⟨h, q, e1, hne, head_ne_of_append e1 hne h1, h2, h3, h4.symm⟩
  · rw [hr] at h5
    by_cases he : h.isEmpty = true
    · rw [if_pos he] at h5
      simp at h5
    · rw [if_neg he] at h5
      have hne := ne_nil_of_isEmpty_false he
      exact Or.inr (Or.inl ⟨h, p, q, e1, hne, head_ne_of_append e1 hne h1, h2, h3, h4,
        h5.symm⟩)
  · rw [hr] at h3
    simp at h3
  · rw [hr] at h4
    exact Or.inr (Or.inr (Or.inl ⟨b, p, q, e1, h1, h2, h3, h4.symm⟩))
  · rw [hr] at h5
    exact Or.inr (Or.inr (Or.inr ⟨b, j, q, e1, h1, h2, h3, h4, h5.symm⟩))

theorem head_before_ne {c d : Char} {t : Str} (h : t.head? ≠ some d) :
    (before c t).head? ≠ some d := by
  cases t with
  | nil => simp [before]
  | cons x xs =>
    by_cases hx : x = c
    · simp [before, hx]
    · simpa [before, hx] using h

/-- The input names no port: after a bare host there is no `:` before the first
`/`; after a bracketed host the character that follows `]` is not `:`. -/
def PortOmitted (input : Str) : Prop :=
  ∃ pos, FirstSep input pos ∧
    ((∃ region q, input.drop (pos + 3) = region ++ q ∧ (region ++ q).head? ≠ some '[' ∧
        '/' ∉ region ∧ PathText q ∧ ':' ∉ region) ∨
      (∃ b t, input.drop (pos + 3) = '[' :: (b ++ ']' :: t) ∧ ']' ∉ b ∧
        t.head? ≠ some ':'))

/-- With the port omitted, the record handed to `finalize_defaults` keeps the
port the caller's record had. -/
theorem parse_url_port_omitted {input : Str} {out r : Url} {error e : Str}
    (h : parse_url input out error = some ⟨true, r, e⟩) (ho : PortOmitted input) :
    ∃ sch hst pth, (sch = "http".toList ∨ sch = "https".toList) ∧
      finalize_defaults ⟨sch, hst, out.port, pth⟩ error = ⟨true, r, e⟩ := by
  obtain ⟨pos, hf, hv, hr⟩ := parse_url_ok_scheme h
  obtain ⟨pos2, hsep, hshape⟩ := ho
  have hp : pos2 = pos := by
    have := (find_str_sep_iff input pos2).2 hsep
    rw [hf] at this
    exact (Option.some.inj this).symm
  subst hp
  rcases hshape with ⟨region, q, e1, h1, h2, h3, h4⟩ | ⟨b, t, e1, h1, h2⟩
  · rw [e1, parse_rest_bare _ _ _ hv h1, bare_rest_no_port_gen _ _ _ _ h4 h2 h3] at hr
    by_cases he : region.isEmpty = true
    · rw [if_pos he] at hr
      simp at hr
    · rw [if_neg he] at hr
      exact ⟨_, _, _, hv, hr⟩
  · have e2 : t = before '/' t ++ since '/' t := (before_append_since _ _).symm
    rw [e1, parse_rest_bracketed _ _ ('[' :: (b ++ ']' :: t)) hv rfl, e2,
      bracketed_rest_no_port _ _ b _ _ h1 (not_mem_before _ _) (head_before_ne h2)
        (PathText.of_since _)] at hr
    exact ⟨_, _, _, hv, hr⟩

theorem path_after (a q : Str) (ha : '/' ∉ a) (hq : PathText q) :
    ('/' ∉ a ++ q ∧ path_of q = "/".toList) ∨
      (∃ a2 q2, a ++ q = a2 ++ '/' :: q2 ∧ '/' ∉ a2 ∧ path_of q = '/' :: q2) := by
  cases q with
  | nil =>
    left
    rw [List.append_nil]
    exact ⟨ha, rfl⟩
  | cons x xs =>
    right
    rcases hq with hq | hq
    · exact absurd hq (List.cons_ne_nil _ _)
    · simp only [List.head?_cons, Option.some.injEq] at hq
      subst hq
      exact ⟨a, xs, rfl, ha, rfl⟩

/-- An accepted input is `s ++ "://" ++ host ++ tail`, the path being read off
`tail`, and host and path of the record do not depend on the caller's record. -/
theorem parse_url_ok_tail {input : Str} {out r : Url} {error e : Str}
    (h : parse_url input out error = some ⟨true, r, e⟩) :
    ∃ s tail a q, input = s ++ "://".toList ++ r.host ++ tail ∧
      find_str input "://".toList 0 = some s.length ∧
      tail = a ++ q ∧ '/' ∉ a ∧ PathText q ∧ r.path = path_of q := by
  obtain ⟨s, rest, hin, hf, hv, hshape⟩ := parse_url_ok_cases h
  rcases hshape with ⟨h, q, e1, _, _, hb, hq, hfin⟩ | ⟨h, p, q, e1, _, _, hb, hp, hq, hfin⟩ |
    ⟨b, p, q, e1, _, hp, hq, hfin⟩ | ⟨b, j, q, e1, _, hj, _, hq, hfin⟩
  · obtain ⟨_, _, h2, h3, _⟩ := finalize_defaults_ok hv hfin
    refine ⟨s, q, [], q, ?_, hf, rfl, by simp, hq, h3⟩
    rw [hin, e1, h2]
    simp only [List.append_assoc]
  · obtain ⟨_, _, h2, h3, _⟩ := finalize_defaults_ok hv hfin
    refine ⟨s, ':' :: (p ++ q), ':' :: p, q, ?_, hf, rfl, ?_, hq, h3⟩
    · rw [hin, e1, h2]
      simp only [List.append_assoc]
    · intro hm
      rcases List.mem_cons.1 hm with e | e
      · exact absurd e (by decide)
      · exact hp e
  · obtain ⟨_, _, h2, h3, _⟩ := finalize_defaults_ok hv hfin
    refine ⟨s, ':' :: (p ++ q), ':' :: p, q, ?_, hf, rfl, ?_, hq, h3⟩
    · rw [hin, e1, h2]
      simp only [List.append_assoc, List.cons_append, List.nil_append]
    · intro hm
      rcases List.mem_cons.1 hm with e | e
      · exact absurd e (by decide)
      · exact hp e
  · obtain ⟨_, _, h2, h3, _⟩ := finalize_defaults_ok hv hfin
    refine ⟨s, j ++ q, j, q, ?_, hf, rfl, hj, hq, h3⟩
    rw [hin, e1, h2]
    simp only [List.append_assoc, List.cons_append, List.nil_append]

/-! ## Records that `parse_url` returns -/

/-- The shape of a record that `parse_url` returns: an accepted scheme, a
non-empty bare host or a bracketed one closed by its first `]`, a non-empty
all-digit port and a path starting with `/`. -/
def WellFormed (r : Url) : Prop :=
  (r.scheme = "http".toList ∨ r.scheme = "https".toList) ∧
    ((r.host ≠ [] ∧ r.host.head? ≠ some '[' ∧ ':' ∉ r.host ∧ '/' ∉ r.host) ∨
      (∃ b, r.host = '[' :: (b ++ [']']) ∧ ']' ∉ b)) ∧
    r.port ≠ [] ∧ IsDigits r.port ∧ r.path.head? = some '/'

theorem parse_url_ok_wf {input : Str} {out r : Url} {error e : Str}
    (h : parse_url input out error = some ⟨true, r, e⟩) : WellFormed r := by
  obtain ⟨s, rest, hin, hf, hv, hshape⟩ := parse_url_ok_cases h
  rcases hshape with ⟨h, q, _, hne, hbr, hb, hq, hfin⟩ | ⟨h, p, q, _, hne, hbr, hb, _, hq, hfin⟩ |
    ⟨b, p, q, _, hb, _, hq, hfin⟩ | ⟨b, j, q, _, hb, _, _, hq, hfin⟩
  all_goals
    obtain ⟨_, h1, h2, h3, _, h5, h6⟩ := finalize_defaults_ok hv hfin
    refine ⟨by rw [h1]; exact hv, ?_, h6, h5, by rw [h3]; exact path_of_head hq⟩
  · exact Or.inl (by rw [h2]; exact ⟨hne, hbr, hb.1, hb.2⟩)
  · exact Or.inl (by rw [h2]; exact ⟨hne, hbr, hb.1, hb.2⟩)
  · exact Or.inr ⟨b, h2, hb⟩
  · exact Or.inr ⟨b, h2, hb⟩

theorem to_lower_inplace_scheme {sch : Str}
    (h : sch = "http".toList ∨ sch = "https".toList) : to_lower_inplace sch = sch := by
  rcases h with h | h <;> rw [h] <;> decide

theorem path_of_of_head {q : Str} (h : q.head? = some '/') : path_of q = q := by
  cases q with
  | nil => simp at h
  | cons x xs => rfl

/-- A well-formed record, written out as `scheme://host:port/path`, parses to
itself, whatever the caller's record held. -/
theorem parse_url_compose {r : Url} (hw : WellFormed r) (out : Url) (error : Str) :
    parse_url (r.scheme ++ "://".toList ++ r.host ++ ":".toList ++ r.port ++ r.path)
      out error = some ⟨true, r, error⟩ := by
  obtain ⟨hv, hh, hne, hd, hp⟩ := hw
  have hv2 : to_lower_inplace r.scheme = "http".toList ∨
      to_lower_inplace r.scheme = "https".toList := by
    rw [to_lower_inplace_scheme hv]
    exact hv
  have hfin : finalize_defaults ⟨to_lower_inplace r.scheme, r.host, r.port, path_of r.path⟩
      error = ⟨true, r, error⟩ := by
    rw [to_lower_inplace_scheme hv, path_of_of_head hp]
    exact finalize_defaults_digits r error hne hd
  rcases hh with ⟨h1, h2, h3, h4⟩ | ⟨b, h1, h2⟩
  · have := parse_url_bare_shape r.scheme r.host (some r.port) r.path out error hv2 h1 h3 h4 h2
      (fun p hp => by cases hp; exact hd.slash_not_mem) (Or.inr hp)
    rw [Option.getD_some, hfin] at this
    rw [← this]
    simp only [opt_port, List.append_assoc, List.cons_append, List.nil_append]
    rfl
  · have := parse_url_bracketed_shape r.scheme b (some r.port) r.path out error hv2 h2
      (fun p hp => by cases hp; exact hd.slash_not_mem) (Or.inr hp)
    rw [Option.getD_some, ← h1, hfin] at this
    rw [← this, h1]
    simp only [opt_port, List.append_assoc, List.cons_append, List.nil_append]
    rfl

/-! ## Letter case of the scheme -/

theorem tolower_eq_colon {x : Char} (h : tolower x = ':') : x = ':' := by
  by_cases hu : 65 ≤ x.toNat ∧ x.toNat ≤ 90
  · exfalso
    obtain ⟨h1, h2⟩ := hu
    have hx : x = Char.ofNat x.toNat := (Char.ofNat_toNat x).symm
    generalize x.toNat = n at hx h1 h2
    subst hx
    revert h
    interval_cases n <;> decide
  · simpa [tolower, hu] using h

theorem tolower_eq_slash {x : Char} (h : tolower x = '/') : x = '/' := by
  by_cases hu : 65 ≤ x.toNat ∧ x.toNat ≤ 90
  · exfalso
    obtain ⟨h1, h2⟩ := hu
    have hx : x = Char.ofNat x.toNat := (Char.ofNat_toNat x).symm
    generalize x.toNat = n at hx h1 h2
    subst hx
    revert h
    interval_cases n <;> decide
  · simpa [tolower, hu] using h

/-- A character that letter case cannot produce or hide. -/
def Rigid (p : Char) : Prop :=
  tolower p = p ∧ ∀ x, tolower x = p → x = p

theorem rigid_colon : Rigid ':' := ⟨by decide, fun _ h => tolower_eq_colon h⟩

theorem rigid_slash : Rigid '/' := ⟨by decide, fun _ h => tolower_eq_slash h⟩

theorem rigid_sep : ∀ p ∈ "://".toList, Rigid p := by
  intro p hp
  have : p = ':' ∨ p = '/' := by
    revert hp
    simp
  rcases this with e | e
  · rw [e]; exact rigid_colon
  · rw [e]; exact rigid_slash

theorem Rigid.beq_congr {p a b : Char} (hp : Rigid p) (h : tolower a = tolower b) :
    (p == a) = (p == b) := by
  by_cases ha : p = a
  · have hb : p = b := by
      have : tolower b = p := by rw [← h, ← ha]; exact hp.1
      exact (hp.2 b this).symm
    rw [← ha, ← hb]
  · have hb : ¬ p = b := by
      intro hb
      apply ha
      have : tolower a = p := by rw [h, ← hb]; exact hp.1
      exact (hp.2 a this).symm
    simp [ha, hb]

theorem starts_with_case (pat : Str) (hpat : ∀ p ∈ pat, Rigid p) (s1 s2 rest : Str)
    (h : to_lower_inplace s1 = to_lower_inplace s2) :
    starts_with pat (s1 ++ rest) = starts_with pat (s2 ++ rest) := by
  induction pat generalizing s1 s2 with
  | nil => simp [starts_with]
  | cons p ps ih =>
    cases s1 with
    | nil =>
      cases s2 with
      | nil => rfl
      | cons b s2 => simp [to_lower_inplace] at h
    | cons a s1 =>
      cases s2 with
      | nil => simp [to_lower_inplace] at h
      | cons b s2 =>
        simp only [to_lower_inplace, List.map_cons, List.cons.injEq] at h
        simp only [List.cons_append, starts_with]
        rw [(hpat p (List.mem_cons_self _ _)).beq_congr h.1]
        exact congrArg (fun x => p == b && x)
          (ih (fun x hx => hpat x (List.mem_cons_of_mem _ hx)) s1 s2 h.2)

theorem find_str_from_case (pat : Str) (hpat : ∀ p ∈ pat, Rigid p) (s1 s2 rest : Str)
    (i : Nat) (h : to_lower_inplace s1 = to_lower_inplace s2) :
    find_str_from pat (s1 ++ rest) i = find_str_from pat (s2 ++ rest) i := by
  induction s1 generalizing s2 i with
  | nil =>
    cases s2 with
    | nil => rfl
    | cons b s2 => simp [to_lower_inplace] at h
  | cons a s1 ih =>
    cases s2 with
    | nil => simp [to_lower_inplace] at h
    | cons b s2 =>
      have hst := starts_with_case pat hpat (a :: s1) (b :: s2) rest h
      simp only [to_lower_inplace, List.map_cons, List.cons.injEq] at h
      simp only [List.cons_append] at hst ⊢
      rw [find_str_from, find_str_from, hst, ih s2 (i + 1) h.2]

theorem length_eq_of_case {s1 s2 : Str} (h : to_lower_inplace s1 = to_lower_inplace s2) :
    s1.length = s2.length := by
  have := congrArg List.length h
  simpa [to_lower_inplace] using this

/-- Inputs that differ in the letter case of the text before the first `://`
only: `parse_url` leaves the same result, record and error text. -/
theorem parse_url_case (s1 s2 rest : Str) (out : Url) (error : Str)
    (hcase : to_lower_inplace s1 = to_lower_inplace s2)
    (hfirst : find_str (s1 ++ rest) "://".toList 0 = some s1.length) :
    parse_url (s1 ++ rest) out error = parse_url (s2 ++ rest) out error := by
  have hlen := length_eq_of_case hcase
  have h2 : find_str (s2 ++ rest) "://".toList 0 = some s2.length := by
    rw [← hlen, ← hfirst]
    simp only [find_str, Nat.zero_le, if_true, List.drop_zero]
    exact (find_str_from_case _ rigid_sep s1 s2 rest 0 hcase).symm
  rw [parse_url_eq, parse_url_eq, hfirst, h2]
  simp only []
  rw [List.take_left, List.take_left, hcase, drop_rel, drop_rel, List.drop_left,
    List.drop_left]

theorem path_of_cases (q : Str) : path_of q = "/".toList ∨ path_of q = q := by
  cases q with
  | nil => exact Or.inl rfl
  | cons x xs => exact Or.inr rfl

/-- Host, port and path of an accepted input are pieces of the text after
`://`, character for character, unless they are the defaults or, for the port,
what the caller's record held. -/
theorem parse_url_ok_verbatim {input : Str} {out r : Url} {error e : Str}
    (h : parse_url input out error = some ⟨true, r, e⟩) :
    ∃ s rest, input = s ++ "://".toList ++ rest ∧
      find_str input "://".toList 0 = some s.length ∧
      r.scheme = to_lower_inplace s ∧
      (∃ tail, rest = r.host ++ tail) ∧
      (r.path = "/".toList ∨ ∃ pre, rest = pre ++ r.path) ∧
      ((∃ pre post, rest = pre ++ r.port ++ post) ∨ r.port = default_port r.scheme ∨
        r.port = out.port) := by
  obtain ⟨s, rest, hin, hf, hv, hshape⟩ := parse_url_ok_cases h
  refine ⟨s, rest, hin, hf, ?_⟩
  rcases hshape with ⟨h, q, e1, _, _, _, _, hfin⟩ | ⟨h, p, q, e1, _, _, _, _, _, hfin⟩ |
    ⟨b, p, q, e1, _, _, _, hfin⟩ | ⟨b, j, q, e1, _, _, _, _, hfin⟩
  all_goals
    obtain ⟨_, h1, h2, h3, h4, _, _⟩ := finalize_defaults_ok hv hfin
    simp only [] at h1 h2 h3 h4
    rw [← h1] at h4
    refine ⟨h1, ?_, ?_, ?_⟩
  · exact ⟨q, by rw [h2, e1]⟩
  · rw [h3]
    exact (path_of_cases q).imp id fun hq => ⟨h, by rw [hq, e1]⟩
  · by_cases hp : out.port = []
    · rw [if_pos hp] at h4
      exact Or.inr (Or.inl h4)
    · rw [if_neg hp] at h4
      exact Or.inr (Or.inr h4)
  · exact ⟨':' :: (p ++ q), by rw [h2, e1]⟩
  · rw [h3]
    exact (path_of_cases q).imp id fun hq => ⟨h ++ ':' :: p, by rw [hq, e1]; simp⟩
  · by_cases hp : p = []
    · rw [if_pos hp] at h4
      exact Or.inr (Or.inl h4)
    · rw [if_neg hp] at h4
      exact Or.inl ⟨h ++ [':'], q, by rw [h4, e1]; simp⟩
  · exact ⟨':' :: (p ++ q), by rw [h2, e1]; simp⟩
  · rw [h3]
    exact (path_of_cases q).imp id fun hq =>
      ⟨'[' :: (b ++ ']' :: ':' :: p), by rw [hq, e1]; simp⟩
  · by_cases hp : p = []
    · rw [if_pos hp] at h4
      exact Or.inr (Or.inl h4)
    · rw [if_neg hp] at h4
      exact Or.inl ⟨'[' :: (b ++ [']', ':']), q, by rw [h4, e1]; simp⟩
  · exact ⟨j ++ q, by rw [h2, e1]; simp⟩
  · rw [h3]
    exact (path_of_cases q).imp id fun hq => ⟨'[' :: (b ++ ']' :: j), by rw [hq, e1]; simp⟩
  · by_cases hp : out.port = []
    · rw [if_pos hp] at h4
      exact Or.inr (Or.inl h4)
    · rw [if_neg hp] at h4
      exact Or.inr (Or.inr h4)

/-! ## A host followed by `:` -/

/-- A non-empty host as the input spells it: bare, or bracketed and closed by
its first `]`. -/
def HostText (hst : Str) : Prop :=
  (hst ≠ [] ∧ hst.head? ≠ some '[' ∧ ':' ∉ hst ∧ '/' ∉ hst) ∨
    (∃ b, hst = '[' :: (b ++ [']']) ∧ ']' ∉ b)

/-- A host, a `:`, a port text without `/` and a path text: the record that
reaches `finalize_defaults` holds exactly these pieces. -/
theorem parse_url_explicit_port (s hst p q : Str) (out : Url) (error : Str)
    (hS : to_lower_inplace s = "http".toList ∨ to_lower_inplace s = "https".toList)
    (hhost : HostText hst) (hp : '/' ∉ p) (hq : PathText q) :
    parse_url (s ++ "://".toList ++ hst ++ ":".toList ++ p ++ q) out error =
      some (finalize_defaults ⟨to_lower_inplace s, hst, p, path_of q⟩ error) := by
  rcases hhost with ⟨h1, h2, h3, h4⟩ | ⟨b, h1, h2⟩
  · have := parse_url_bare_shape s hst (some p) q out error hS h1 h3 h4 h2
      (fun x hx => by cases hx; exact hp) hq
    rw [Option.getD_some] at this
    rw [← this]
    simp only [opt_port, List.append_assoc, List.cons_append, List.nil_append]
    rfl
  · have := parse_url_bracketed_shape s b (some p) q out error hS h2
      (fun x hx => by cases hx; exact hp) hq
    rw [Option.getD_some, ← h1] at this
    rw [← this, h1]
    simp only [opt_port, List.append_assoc, List.cons_append, List.nil_append]
    rfl

/-- Where `find` reports a character, it is at or after the start position and
inside the string, so no difference of positions in `parse_url` goes below
zero. -/
theorem find_char_bounds {s : Str} {c : Char} {pos i : Nat}
    (h : find_char s c pos = some i) : pos ≤ i ∧ i < s.length := by
  rw [find_char_eq] at h
  by_cases hm : c ∈ s.drop pos
  · rw [if_pos hm] at h
    have hlt := length_before_lt hm
    rw [List.length_drop] at hlt
    have := Option.some.inj h
    omega
  · rw [if_neg hm] at h
    exact Option.noConfusion h

/-! ## Failures -/

/-- With an accepted scheme, `finalize_defaults` either succeeds and leaves the
error text alone, or fails on the port it was given. -/
theorem finalize_defaults_cases (u : Url) (error : Str)
    (hS : u.scheme = "http".toList ∨ u.scheme = "https".toList) :
    (∃ r, finalize_defaults u error = ⟨true, r, error⟩) ∨
      (finalize_defaults u error = ⟨false, u, "Invalid port: ".toList ++ u.port⟩ ∧
        ¬ IsDigits u.port) := by
  by_cases hp : u.port = []
  · exact Or.inl ⟨_, finalize_defaults_empty u error hp hS⟩
  · by_cases hd : IsDigits u.port
    · exact Or.inl ⟨_, finalize_defaults_digits u error hp hd⟩
    · exact Or.inr ⟨finalize_defaults_bad u error hd, hd⟩

theorem invalid_port_ne_empty_host (p : Str) :
    "Invalid port: ".toList ++ p ≠ "Invalid URL: empty host".toList := by
  intro h
  have h8 := congrArg (fun l => l[8]?) h
  revert h8
  simp

theorem finalize_defaults_not_empty_host (u : Url) (error : Str)
    (hS : u.scheme = "http".toList ∨ u.scheme = "https".toList) :
    ¬ ((finalize_defaults u error).ok = false ∧
      (finalize_defaults u error).error = "Invalid URL: empty host".toList) := by
  rintro ⟨h1, h2⟩
  rcases finalize_defaults_cases u error hS with ⟨r, hr⟩ | ⟨hr, _⟩
  · rw [hr] at h1
    exact Bool.noConfusion h1
  · rw [hr] at h2
    exact invalid_port_ne_empty_host _ h2

/-- A bare-branch text `h ++ ":" ++ p ++ q`, the host `h` possibly empty. -/
theorem parse_url_bare_colon (s h p q : Str) (out : Url) (error : Str)
    (hS : to_lower_inplace s = "http".toList ∨ to_lower_inplace s = "https".toList)
    (hbr : h.head? ≠ some '[') (hc : ':' ∉ h) (hs : '/' ∉ h) (hp : '/' ∉ p)
    (hq : PathText q) :
    parse_url (s ++ "://".toList ++ (h ++ ':' :: (p ++ q))) out error =
      some (if h.isEmpty then
          ⟨false, ⟨to_lower_inplace s, h, p, out.path⟩, "Invalid URL: empty host".toList⟩
        else finalize_defaults ⟨to_lower_inplace s, h, p, path_of q⟩ error) := by
  have hhd : (h ++ ':' :: (p ++ q)).head? ≠ some '[' := by
    cases h with
    | nil => simp
    | cons x xs => simpa using hbr
  rw [parse_url_append _ _ _ _ (find_str_append_sep _ _ (colon_not_mem_of_scheme hS)),
    parse_rest_bare _ _ _ hS hhd, bare_rest_port_gen _ _ _ _ _ hc hs hp hq]

theorem head_of_bare_ne_nil {h : Str} (t : Str) (hne : h ≠ []) (hb : BareText h) :
    h ++ t ≠ [] ∧ (h ++ t).head? ≠ some '/' ∧ (h ++ t).head? ≠ some ':' := by
  cases h with
  | nil => exact absurd rfl hne
  | cons x xs =>
    obtain ⟨h1, h2⟩ := hb
    simp only [List.mem_cons, not_or] at h1 h2
    refine ⟨by simp, ?_, ?_⟩
    · simpa using fun e => h2.1 e.symm
    · simpa using fun e => h1.1 e.symm

theorem unterminated_ne_empty_host :
    "Invalid URL: missing closing ']' for IPv6 address".toList ≠
      "Invalid URL: empty host".toList := by
  decide

/-- With an accepted scheme, the empty-host failure is returned exactly when
the text after `://` is empty or begins with `/` or `:`. -/
theorem parse_rest_empty_host_iff (out : Url) (rest : Str) (error : Str)
    (hS : out.scheme = "http".toList ∨ out.scheme = "https".toList) :
    ((parse_rest out rest error).ok = false ∧
        (parse_rest out rest error).error = "Invalid URL: empty host".toList) ↔
      (rest = [] ∨ rest.head? = some '/' ∨ rest.head? = some ':') := by
  rcases parse_rest_cases out rest error hS with
    ⟨h, q, e1, _, h2, h3, h4⟩ | ⟨h, p, q, e1, _, h2, _, _, h5⟩ | ⟨h1, _, h3⟩ |
    ⟨b, p, q, e1, _, _, _, h4⟩ | ⟨b, j, q, e1, _, _, _, _, h5⟩
  · rw [h4]
    by_cases hne : h = []
    · subst hne
      rw [List.nil_append] at e1
      subst e1
      refine ⟨fun _ => ?_, fun _ => ⟨rfl, rfl⟩⟩
      rcases h3 with h3 | h3
      · exact Or.inl h3
      · exact Or.inr (Or.inl h3)
    · obtain ⟨n1, n2, n3⟩ := head_of_bare_ne_nil q hne h2
      rw [isEmpty_false_of_ne_nil hne]
      simp only [Bool.false_eq_true, if_false]
      constructor
      · intro hf
        exact absurd hf (finalize_defaults_not_empty_host _ error hS)
      · rw [e1]
        rintro (r | r | r)
        · exact absurd r n1
        · exact absurd r n2
        · exact absurd r n3
  · rw [h5]
    by_cases hne : h = []
    · subst hne
      rw [List.nil_append] at e1
      subst e1
      exact ⟨fun _ => Or.inr (Or.inr rfl), fun _ => ⟨rfl, rfl⟩⟩
    · obtain ⟨n1, n2, n3⟩ := head_of_bare_ne_nil (':' :: (p ++ q)) hne h2
      rw [isEmpty_false_of_ne_nil hne]
      simp only [Bool.false_eq_true, if_false]
      constructor
      · intro hf
        exact absurd hf (finalize_defaults_not_empty_host _ error hS)
      · rw [e1]
        rintro (r | r | r)
        · exact absurd r n1
        · exact absurd r n2
        · exact absurd r n3
  · rw [h3]
    constructor
    · rintro ⟨_, hf⟩
      exact absurd hf unterminated_ne_empty_host
    · rintro (r | r | r)
      · rw [r] at h1; simp at h1
      · rw [r] at h1; exact absurd h1 (by decide)
      · rw [r] at h1; exact absurd h1 (by decide)
  · rw [h4, e1]
    constructor
    · intro hf
      exact absurd hf (finalize_defaults_not_empty_host _ error hS)
    · rintro (r | r | r)
      · exact absurd r (List.cons_ne_nil _ _)
      · exact absurd r (by simp)
      · exact absurd r (by simp)
  · rw [h5, e1]
    constructor
    · intro hf
      exact absurd hf (finalize_defaults_not_empty_host _ error hS)
    · rintro (r | r | r)
      · exact absurd r (List.cons_ne_nil _ _)
      · exact absurd r (by simp)
      · exact absurd r (by simp)

/-- What a failing `parse_rest` leaves behind: the scheme field is kept, and
either the record is untouched (scheme not accepted, the error text being left
as it was, or an unterminated bracket), or the host came out empty, or the port
did not pass the digit check. -/
theorem parse_rest_fail_cases (out : Url) (rest : Str) (error : Str)
    (hf : (parse_rest out rest error).ok = false) :
    (parse_rest out rest error).out.scheme = out.scheme ∧
      (((parse_rest out rest error).out = out ∧
          (((parse_rest out rest error).error = error ∧
              ¬ (out.scheme = "http".toList ∨ out.scheme = "https".toList)) ∨
            (parse_rest out rest error).error =
              "Invalid URL: missing closing ']' for IPv6 address".toList)) ∨
        ((parse_rest out rest error).error = "Invalid URL: empty host".toList ∧
          (parse_rest out rest error).out.host = [] ∧
          (parse_rest out rest error).out.path = out.path) ∨
        ((parse_rest out rest error).error =
            "Invalid port: ".toList ++ (parse_rest out rest error).out.port ∧
          ¬ IsDigits (parse_rest out rest error).out.port)) := by
  by_cases hS : out.scheme = "http".toList ∨ out.scheme = "https".toList
  · have fin : ∀ u : Url, (finalize_defaults u error).ok = false →
        u.scheme = out.scheme →
        (finalize_defaults u error).out.scheme = out.scheme ∧
          ((finalize_defaults u error).error =
              "Invalid port: ".toList ++ (finalize_defaults u error).out.port ∧
            ¬ IsDigits (finalize_defaults u error).out.port) := by
      intro u hfu hu
      rcases finalize_defaults_cases u error (hu ▸ hS) with ⟨r, hr⟩ | ⟨hr, hd⟩
      · rw [hr] at hfu
        exact Bool.noConfusion hfu
      · rw [hr]
        exact ⟨hu, rfl, hd⟩
    rcases parse_rest_cases out rest error hS with
      ⟨h, q, _, _, _, _, h4⟩ | ⟨h, p, q, _, _, _, _, _, h4⟩ | ⟨_, _, h4⟩ |
      ⟨b, p, q, _, _, _, _, h4⟩ | ⟨b, j, q, _, _, _, _, _, h4⟩
    · rw [h4] at hf ⊢
      by_cases he : h.isEmpty = true
      · rw [if_pos he]
        have : h = [] := List.isEmpty_iff.1 he
        exact ⟨rfl, Or.inr (Or.inl ⟨rfl, this, rfl⟩)⟩
      · rw [if_neg he] at hf ⊢
        obtain ⟨f1, f2⟩ := fin _ hf rfl
        exact ⟨f1, Or.inr (Or.inr f2)⟩
    · rw [h4] at hf ⊢
      by_cases he : h.isEmpty = true
      · rw [if_pos he]
        have : h = [] := List.isEmpty_iff.1 he
        exact ⟨rfl, Or.inr (Or.inl ⟨rfl, this, rfl⟩)⟩
      · rw [if_neg he] at hf ⊢
        obtain ⟨f1, f2⟩ := fin _ hf rfl
        exact ⟨f1, Or.inr (Or.inr f2)⟩
    · rw [h4]
      exact ⟨rfl, Or.inl ⟨rfl, Or.inr rfl⟩⟩
    · rw [h4] at hf ⊢
      obtain ⟨f1, f2⟩ := fin _ hf rfl
      exact ⟨f1, Or.inr (Or.inr f2)⟩
    · rw [h4] at hf ⊢
      obtain ⟨f1, f2⟩ := fin _ hf rfl
      exact ⟨f1, Or.inr (Or.inr f2)⟩
  · rw [parse_rest_bad_scheme out error rest hS]
    exact ⟨rfl, Or.inl ⟨rfl, Or.inl ⟨rfl, hS⟩⟩⟩

theorem invalid_port_ne_missing_sep (p : Str) :
    "Invalid port: ".toList ++ p ≠ "Invalid URL: missing '://'".toList := by
  intro h
  have h8 := congrArg (fun l => l[8]?) h
  revert h8
  simp

/-- The input has an occurrence of `://` exactly when `find` reports one. -/
theorem find_str_none_iff (input : Str) :
    find_str input "://".toList 0 = none ↔ ¬ ∃ a b, input = a ++ "://".toList ++ b := by
  constructor
  · intro hf
    rintro ⟨a, b, e⟩
    simp only [find_str, Nat.zero_le, if_true, List.drop_zero] at hf
    have h1 := find_str_from_none _ _ _ hf a.length
    have h2 : starts_with "://".toList (input.drop a.length) = true := by
      rw [starts_with_iff]
      exact ⟨b, by rw [e, List.append_assoc, List.drop_left]⟩
    rw [h2] at h1
    exact Bool.noConfusion h1
  · intro hn
    cases hf : find_str input "://".toList 0 with
    | none => rfl
    | some pos => exact absurd ⟨_, _, (input_split hf).1⟩ hn

theorem validate_port_scheme (u : Url) (error : Str) :
    (validate_port u error).out.scheme = u.scheme := by
  unfold validate_port
  split <;> rfl

theorem finalize_defaults_scheme (u : Url) (error : Str) :
    (finalize_defaults u error).out.scheme = u.scheme := by
  unfold finalize_defaults
  split
  · split
    · exact validate_port_scheme _ _
    · split
      · exact validate_port_scheme _ _
      · rfl
  · exact validate_port_scheme _ _

/-- Whatever `parse_rest` returns, the scheme field is the one it was given. -/
theorem parse_rest_scheme (out : Url) (rest : Str) (error : Str) :
    (parse_rest out rest error).out.scheme = out.scheme := by
  by_cases hS : out.scheme = "http".toList ∨ out.scheme = "https".toList
  · rcases parse_rest_cases out rest error hS with
      ⟨h, q, _, _, _, _, h4⟩ | ⟨h, p, q, _, _, _, _, _, h4⟩ | ⟨_, _, h4⟩ |
      ⟨b, p, q, _, _, _, _, h4⟩ | ⟨b, j, q, _, _, _, _, _, h4⟩
    · rw [h4]
      split
      · rfl
      · exact finalize_defaults_scheme _ _
    · rw [h4]
      split
      · rfl
      · exact finalize_defaults_scheme _ _
    · rw [h4]
    · rw [h4]
      exact finalize_defaults_scheme _ _
    · rw [h4]
      exact finalize_defaults_scheme _ _
  · rw [parse_rest_bad_scheme out error rest hS]

/-- A bracketed host followed by text `j` that neither starts with `:` nor holds
a `/`: the text is skipped, the port field is not assigned. -/
theorem parse_url_bracketed_stray (s b j q : Str) (out : Url) (error : Str)
    (hS : to_lower_inplace s = "http".toList ∨ to_lower_inplace s = "https".toList)
    (hb : ']' ∉ b) (hj : '/' ∉ j) (hjc : j.head? ≠ some ':') (hq : PathText q) :
    parse_url (s ++ "://".toList ++ ('[' :: (b ++ ']' :: (j ++ q)))) out error =
      some (finalize_defaults
        ⟨to_lower_inplace s, '[' :: (b ++ [']']), out.port, path_of q⟩ error) := by
  rw [parse_url_append _ _ _ _ (find_str_append_sep _ _ (colon_not_mem_of_scheme hS)),
    parse_rest_bracketed _ _ ('[' :: (b ++ ']' :: (j ++ q))) hS rfl,
    bracketed_rest_no_port _ _ _ _ _ hb hj hjc hq]

/-- Called with an empty error text, a failing `parse_url` returns an empty
error text exactly when the input has `://` and the scheme is not accepted. -/
theorem parse_url_fail_reason_empty_iff (input : Str) (out : Url) (o : Outcome)
    (h : parse_url input out [] = some o) (hf : o.ok = false) :
    o.error = [] ↔
      ∃ pos, FirstSep input pos ∧
        ¬ (to_lower_inplace (input.take pos) = "http".toList ∨
          to_lower_inplace (input.take pos) = "https".toList) := by
  rw [parse_url_eq] at h
  cases hfind : find_str input "://".toList 0 with
  | none =>
    rw [hfind] at h
    have ho := Option.some.inj h
    rw [← ho]
    constructor
    · intro he
      have he2 : "Invalid URL: missing '://'".toList = [] := he
      exact absurd he2 (by decide)
    · rintro ⟨pos, hp, _⟩
      rw [(find_str_sep_iff _ _).2 hp] at hfind
      exact Option.noConfusion hfind
  | some pos =>
    rw [hfind] at h
    have ho := Option.some.inj h
    rw [← ho] at hf ⊢
    constructor
    · intro he
      refine ⟨pos, (find_str_sep_iff _ _).1 hfind, ?_⟩
      rcases (parse_rest_fail_cases _ _ _ hf).2 with ⟨_, ⟨_, h3⟩ | h3⟩ | ⟨h3, _⟩ | ⟨h3, _⟩
      · exact h3
      · rw [h3] at he
        exact absurd he (by decide)
      · rw [h3] at he
        exact absurd he (by decide)
      · rw [h3] at he
        exact absurd he (by simp)
    · rintro ⟨pos2, hp, hbad⟩
      have e : pos2 = pos := by
        have := (find_str_sep_iff _ _).2 hp
        rw [hfind] at this
        exact (Option.some.inj this).symm
      subst e
      rw [parse_rest_bad_scheme _ _ _ hbad]

/-! ## What the outcome depends on -/

/-- With an accepted scheme and a text after `://` that is empty or begins
with `/`: the empty-host failure, only the host field written. -/
theorem parse_rest_no_host (out : Url) (rest : Str) (error : Str)
    (hS : out.scheme = "http".toList ∨ out.scheme = "https".toList)
    (hr : rest = [] ∨ rest.head? = some '/') :
    parse_rest out rest error =
      ⟨false, { out with host := [] }, "Invalid URL: empty host".toList⟩ := by
  have hb : rest.head? ≠ some '[' := by
    rcases hr with hr | hr
    · rw [hr]; simp
    · rw [hr]; decide
  have := bare_rest_no_port_gen out error [] rest (by simp) (by simp) hr
  rw [List.nil_append] at this
  rw [parse_rest_bare out error rest hS hb, this]
  rfl

/-- With an accepted scheme and a text after `://` that begins with `:`: the
empty-host failure, host and port fields written. -/
theorem parse_rest_colon_first (out : Url) (p q : Str) (error : Str)
    (hS : out.scheme = "http".toList ∨ out.scheme = "https".toList)
    (hp : '/' ∉ p) (hq : PathText q) :
    parse_rest out (':' :: (p ++ q)) error =
      ⟨false, { out with host := [], port := p }, "Invalid URL: empty host".toList⟩ := by
  have := bare_rest_port_gen out error [] p q (by simp) (by simp) hp hq
  rw [List.nil_append] at this
  rw [parse_rest_bare out error _ hS (by simp), this]
  rfl

/-- With an accepted scheme, a failure that is neither the unterminated
bracket nor the empty host is the invalid-port failure: the record holds the
non-empty host the text begins with, the rejected port and a path starting
with `/`. -/
theorem parse_rest_invalid_port (out : Url) (rest : Str) (error : Str)
    (hS : out.scheme = "http".toList ∨ out.scheme = "https".toList)
    (hf : (parse_rest out rest error).ok = false)
    (hu : ¬ (rest.head? = some '[' ∧ ']' ∉ rest))
    (he : ¬ (rest = [] ∨ rest.head? = some '/' ∨ rest.head? = some ':')) :
    (parse_rest out rest error).error =
        "Invalid port: ".toList ++ (parse_rest out rest error).out.port ∧
      ¬ IsDigits (parse_rest out rest error).out.port ∧
      (parse_rest out rest error).out.host ≠ [] ∧
      (∃ tail, rest = (parse_rest out rest error).out.host ++ tail) ∧
      (parse_rest out rest error).out.path.head? = some '/' := by
  have fin : ∀ u : Url, (finalize_defaults u error).ok = false → u.scheme = out.scheme →
      finalize_defaults u error = ⟨false, u, "Invalid port: ".toList ++ u.port⟩ ∧
        ¬ IsDigits u.port := by
    intro u hfu hu
    rcases finalize_defaults_cases u error (hu ▸ hS) with ⟨r, hr⟩ | hr
    · rw [hr] at hfu
      exact Bool.noConfusion hfu
    · exact hr
  rcases parse_rest_cases out rest error hS with
    ⟨h, q, e1, _, _, h3, h4⟩ | ⟨h, p, q, e1, _, _, _, h3, h4⟩ | ⟨h1, h2, _⟩ |
    ⟨b, p, q, e1, _, _, h3, h4⟩ | ⟨b, j, q, e1, _, _, _, h3, h4⟩
  · rw [h4] at hf ⊢
    by_cases hh : h.isEmpty = true
    · exfalso
      have : h = [] := List.isEmpty_iff.1 hh
      subst this
      rw [List.nil_append] at e1
      rcases h3 with h3 | h3
      · exact he (Or.inl (e1.trans h3))
      · exact he (Or.inr (Or.inl (e1 ▸ h3)))
    · rw [if_neg hh] at hf ⊢
      obtain ⟨f1, f2⟩ := fin _ hf rfl
      rw [f1]
      exact ⟨rfl, f2, ne_nil_of_isEmpty_false hh, ⟨q, e1⟩, path_of_head h3⟩
  · rw [h4] at hf ⊢
    by_cases hh : h.isEmpty = true
    · exfalso
      have : h = [] := List.isEmpty_iff.1 hh
      subst this
      rw [List.nil_append] at e1
      exact he (Or.inr (Or.inr (by rw [e1]; rfl)))
    · rw [if_neg hh] at hf ⊢
      obtain ⟨f1, f2⟩ := fin _ hf rfl
      rw [f1]
      exact ⟨rfl, f2, ne_nil_of_isEmpty_false hh, ⟨':' :: (p ++ q), e1⟩, path_of_head h3⟩
  · exact absurd ⟨h1, h2⟩ hu
  · rw [h4] at hf ⊢
    obtain ⟨f1, f2⟩ := fin _ hf rfl
    rw [f1]
    exact ⟨rfl, f2, List.cons_ne_nil _ _, ⟨':' :: (p ++ q), by rw [e1]; simp⟩,
      path_of_head h3⟩
  · rw [h4] at hf ⊢
    obtain ⟨f1, f2⟩ := fin _ hf rfl
    rw [f1]
    exact ⟨rfl, f2, List.cons_ne_nil _ _, ⟨j ++ q, by rw [e1]; simp⟩, path_of_head h3⟩

/-! ## The claims -/

/-- C1. Bare-host decomposition: for a scheme text `S` that lower-cases to
`http` or `https`, a non-empty host `H` without `:` and `/` that does not start
with `[`, an optional non-empty all-digit port `P` and an optional path `Q`
starting with `/`, `parse_url` on `S ++ "://" ++ H ++ [":" ++ P] ++ [Q]`, from an
empty record, succeeds with the lower-cased scheme, `H`, `P` (or the scheme's
default port) and `Q` (or `/`), and leaves the error text as it was. -/
theorem parse_url_bare_host (S H : Str) (P Q : Option Str) (error : Str)
    (hS : to_lower_inplace S = "http".toList ∨ to_lower_inplace S = "https".toList)
    (hne : H ≠ []) (hcolon : ':' ∉ H) (hslash : '/' ∉ H) (hbr : H.head? ≠ some '[')
    (hP : ∀ p, P = some p → p ≠ [] ∧ IsDigits p)
    (hQ : ∀ q, Q = some q → q.head? = some '/') :
    parse_url (S ++ "://".toList ++ H ++ opt_port P ++ opt_path Q) Url.empty error =
      some ⟨true,
        ⟨to_lower_inplace S, H, P.getD (default_port (to_lower_inplace S)),
          Q.getD "/".toList⟩,
        error⟩ := by
  have e : S ++ "://".toList ++ H ++ opt_port P ++ opt_path Q =
      S ++ "://".toList ++ (H ++ opt_port P ++ opt_path Q) := by
    simp only [List.append_assoc]
  rw [e, parse_url_bare_shape S H P (opt_path Q) Url.empty error hS hne hcolon hslash hbr
      (fun p hp => (hP p hp).2.slash_not_mem) (opt_path_pathText hQ),
    finalize_defaults_opt _ _ _ _ _ hS hP, path_of_opt_path hQ]

/-- C1, the instance `http://example.com:8080`. -/
theorem parse_url_bare_host_witness :
    parse_url "http://example.com:8080".toList Url.empty [] =
      some ⟨true, ⟨"http".toList, "example.com".toList, "8080".toList, "/".toList⟩, []⟩ :=
  parse_url_bare_host "http".toList "example.com".toList (some "8080".toList) none []
    (by decide) (by decide) (by decide) (by decide) (by decide)
    (by intro p hp; cases hp; exact ⟨by decide, by decide⟩)
    (by intro q hq; cases hq)

/-- C2. Bracketed IPv6 decomposition: for a scheme text `S` that lower-cases to
`http` or `https`, a text `B` without `]`, an optional non-empty all-digit port
`P` and an optional path `Q` starting with `/`, `parse_url` on
`S ++ "://[" ++ B ++ "]" ++ [":" ++ P] ++ [Q]`, from an empty record, succeeds
with host `"[" ++ B ++ "]"`, port `P` (or the scheme's default port) and path
`Q` (or `/`). -/
theorem parse_url_bracketed_host (S B : Str) (P Q : Option Str) (error : Str)
    (hS : to_lower_inplace S = "http".toList ∨ to_lower_inplace S = "https".toList)
    (hB : ']' ∉ B)
    (hP : ∀ p, P = some p → p ≠ [] ∧ IsDigits p)
    (hQ : ∀ q, Q = some q → q.head? = some '/') :
    parse_url (S ++ "://[".toList ++ B ++ "]".toList ++ opt_port P ++ opt_path Q)
        Url.empty error =
      some ⟨true,
        ⟨to_lower_inplace S, "[".toList ++ B ++ "]".toList,
          P.getD (default_port (to_lower_inplace S)), Q.getD "/".toList⟩,
        error⟩ := by
  have e : S ++ "://[".toList ++ B ++ "]".toList ++ opt_port P ++ opt_path Q =
      S ++ "://".toList ++ ('[' :: (B ++ ']' :: (opt_port P ++ opt_path Q))) := by
    have e1 : "://[".toList = "://".toList ++ ['['] := rfl
    have e2 : "]".toList = [']'] := rfl
    rw [e1, e2]
    simp only [List.append_assoc, List.cons_append, List.nil_append, List.singleton_append]
  have e3 : "[".toList ++ B ++ "]".toList = '[' :: (B ++ [']']) := rfl
  rw [e, e3, parse_url_bracketed_shape S B P (opt_path Q) Url.empty error hS hB
      (fun p hp => (hP p hp).2.slash_not_mem) (opt_path_pathText hQ),
    finalize_defaults_opt _ _ _ _ _ hS hP, path_of_opt_path hQ]

/-- C2, the instances `https://[2001:db8::1]:8443/p` and `https://[::1]`. -/
theorem parse_url_bracketed_host_witness :
    parse_url "https://[2001:db8::1]:8443/p".toList Url.empty [] =
        some ⟨true,
          ⟨"https".toList, "[2001:db8::1]".toList, "8443".toList, "/p".toList⟩, []⟩ ∧
      parse_url "https://[::1]".toList Url.empty [] =
        some ⟨true, ⟨"https".toList, "[::1]".toList, "443".toList, "/".toList⟩, []⟩ :=
  ⟨parse_url_bracketed_host "https".toList "2001:db8::1".toList (some "8443".toList)
      (some "/p".toList) []
      (by decide) (by decide)
      (by intro p hp; cases hp; exact ⟨by decide, by decide⟩)
      (by intro q hq; cases hq; rfl),
    parse_url_bracketed_host "https".toList "::1".toList none none []
      (by decide) (by decide)
      (by intro p hp; cases hp)
      (by intro q hq; cases hq)⟩

/-- C3. Default port: when `parse_url` succeeds from an empty record on an
input whose port is omitted, the returned port is `80` with scheme `http` and
`443` with scheme `https`, and nothing else. -/
theorem parse_url_default_port (input : Str) (r : Url) (error e : Str)
    (h : parse_url input Url.empty error = some ⟨true, r, e⟩) (ho : PortOmitted input) :
    (r.scheme = "http".toList ∧ r.port = "80".toList) ∨
      (r.scheme = "https".toList ∧ r.port = "443".toList) := by
  obtain ⟨sch, hst, pth, hv, hfin⟩ := parse_url_port_omitted h ho
  obtain ⟨_, h1, _, _, h2, _, _⟩ := finalize_defaults_ok hv hfin
  have h3 : r.port = default_port sch := by
    rw [h2]
    rfl
  rw [h1, h3]
  rcases hv with hv | hv
  · exact Or.inl ⟨hv, by rw [hv]; rfl⟩
  · exact Or.inr ⟨hv, by rw [hv]; rfl⟩

/-- C3, the instance `https://example.com/a/b`. -/
theorem parse_url_default_port_witness :
    PortOmitted "https://example.com/a/b".toList ∧
      parse_url "https://example.com/a/b".toList Url.empty [] =
        some ⟨true,
          ⟨"https".toList, "example.com".toList, "443".toList, "/a/b".toList⟩, []⟩ ∧
      (("https".toList = "http".toList ∧ "443".toList = "80".toList) ∨
        ("https".toList = "https".toList ∧ "443".toList = "443".toList)) :=
  have ho : PortOmitted "https://example.com/a/b".toList :=
    ⟨5, (find_str_sep_iff _ _).1 (by decide),
      Or.inl ⟨"example.com".toList, "/a/b".toList, rfl, by decide, by decide,
        Or.inr rfl, by decide⟩⟩
  ⟨ho, by decide,
    parse_url_default_port "https://example.com/a/b".toList
      ⟨"https".toList, "example.com".toList, "443".toList, "/a/b".toList⟩ [] []
      (by decide) ho⟩

/-- C4. Path invariant: whenever `parse_url` succeeds, the returned path is
non-empty and starts with `/`; the input is `s ++ "://" ++ host ++ tail` with
`s` the text before the first `://`, and the path is `/` when `tail` has no
`/`, otherwise the suffix of the input that starts at the first `/` of
`tail`. -/
theorem parse_url_path (input : Str) (out r : Url) (error e : Str)
    (h : parse_url input out error = some ⟨true, r, e⟩) :
    r.path ≠ [] ∧ r.path.head? = some '/' ∧
      ∃ s tail, input = s ++ "://".toList ++ r.host ++ tail ∧ FirstSep input s.length ∧
        (('/' ∉ tail ∧ r.path = "/".toList) ∨
          (∃ a q, tail = a ++ '/' :: q ∧ '/' ∉ a ∧ r.path = '/' :: q)) := by
  obtain ⟨s, tail, a, q, hin, hf, ht, ha, hq, hp⟩ := parse_url_ok_tail h
  refine ⟨by rw [hp]; exact path_of_ne_nil q, by rw [hp]; exact path_of_head hq,
    s, tail, hin, (find_str_sep_iff _ _).1 hf, ?_⟩
  rw [ht, hp]
  exact path_after a q ha hq

/-- C4, the instance `https://[::1]:8443`, which has no `/` after host and
port. -/
theorem parse_url_path_witness :
    (parse_url "https://[::1]:8443".toList Url.empty [] =
        some ⟨true, ⟨"https".toList, "[::1]".toList, "8443".toList, "/".toList⟩, []⟩ ∧
      "/".toList ≠ [] ∧ "/".toList.head? = some '/' ∧
      ∃ s tail, "https://[::1]:8443".toList = s ++ "://".toList ++ "[::1]".toList ++ tail ∧
        FirstSep "https://[::1]:8443".toList s.length ∧
        (('/' ∉ tail ∧ "/".toList = "/".toList) ∨
          (∃ a q, tail = a ++ '/' :: q ∧ '/' ∉ a ∧ "/".toList = '/' :: q))) :=
  ⟨by decide,
    parse_url_path "https://[::1]:8443".toList Url.empty
      ⟨"https".toList, "[::1]".toList, "8443".toList, "/".toList⟩ [] [] (by decide)⟩

/-- C5. Round-trip stability: when `parse_url` succeeds from an empty record
with record `r`, parsing `r.scheme ++ "://" ++ r.host ++ ":" ++ r.port ++ r.path`
from an empty record succeeds and returns `r` again, for bare and bracketed
hosts and for defaulted ports and paths alike. -/
theorem parse_url_round_trip (input : Str) (r : Url) (error e error2 : Str)
    (h : parse_url input Url.empty error = some ⟨true, r, e⟩) :
    parse_url (r.scheme ++ "://".toList ++ r.host ++ ":".toList ++ r.port ++ r.path)
      Url.empty error2 = some ⟨true, r, error2⟩ :=
  parse_url_compose (parse_url_ok_wf h) Url.empty error2

/-- C5, the instance `https://[2001:db8::1/x]`: a bracketed host holding `:` and
`/`, port and path both filled in by default. -/
theorem parse_url_round_trip_witness :
    parse_url "https://[2001:db8::1/x]".toList Url.empty [] =
        some ⟨true, ⟨"https".toList, "[2001:db8::1/x]".toList, "443".toList, "/".toList⟩, []⟩ ∧
      parse_url ("https".toList ++ "://".toList ++ "[2001:db8::1/x]".toList ++ ":".toList ++
          "443".toList ++ "/".toList) Url.empty [] =
        some ⟨true, ⟨"https".toList, "[2001:db8::1/x]".toList, "443".toList, "/".toList⟩, []⟩ :=
  ⟨by decide,
    parse_url_round_trip "https://[2001:db8::1/x]".toList
      ⟨"https".toList, "[2001:db8::1/x]".toList, "443".toList, "/".toList⟩ [] [] []
      (by decide)⟩

/-- C7. Record invariants: when `parse_url` succeeds from an empty record, the
scheme is `http` or `https`; the host is non-empty and either starts with `[`
and ends with `]` or contains neither `:` nor `/`; the port is non-empty and
all digits. -/
theorem parse_url_record_invariants (input : Str) (r : Url) (error e : Str)
    (h : parse_url input Url.empty error = some ⟨true, r, e⟩) :
    (r.scheme = "http".toList ∨ r.scheme = "https".toList) ∧
      r.host ≠ [] ∧
      ((r.host.head? = some '[' ∧ r.host.getLast? = some ']') ∨
        (':' ∉ r.host ∧ '/' ∉ r.host)) ∧
      r.port ≠ [] ∧ IsDigits r.port := by
  obtain ⟨hv, hh, hne, hd, _⟩ := parse_url_ok_wf h
  refine ⟨hv, ?_, ?_, hne, hd⟩
  · rcases hh with ⟨h1, _⟩ | ⟨b, h1, _⟩
    · exact h1
    · rw [h1]
      exact List.cons_ne_nil _ _
  · rcases hh with ⟨_, _, h3, h4⟩ | ⟨b, h1, _⟩
    · exact Or.inr ⟨h3, h4⟩
    · left
      rw [h1]
      refine ⟨rfl, ?_⟩
      rw [← List.cons_append, List.getLast?_append]
      rfl

/-- C7, the instance `http://[::1]/x`. -/
theorem parse_url_record_invariants_witness :
    parse_url "http://[::1]/x".toList Url.empty [] =
        some ⟨true, ⟨"http".toList, "[::1]".toList, "80".toList, "/x".toList⟩, []⟩ ∧
      ("http".toList = "http".toList ∨ "http".toList = "https".toList) ∧
      "[::1]".toList ≠ [] ∧
      (("[::1]".toList.head? = some '[' ∧ "[::1]".toList.getLast? = some ']') ∨
        (':' ∉ "[::1]".toList ∧ '/' ∉ "[::1]".toList)) ∧
      "80".toList ≠ [] ∧ IsDigits "80".toList :=
  ⟨by decide,
    parse_url_record_invariants "http://[::1]/x".toList
      ⟨"http".toList, "[::1]".toList, "80".toList, "/x".toList⟩ [] [] (by decide)⟩

/-- C6. Scheme case-insensitivity: two inputs `s1 ++ rest` and `s2 ++ rest`,
`s1` being the text before the first `://` and `s2` differing from it in ASCII
letter case only, give the same outcome of `parse_url` (both fail, or both
succeed with the same record); on success the scheme is the lower-cased `s1`,
while host, path and an explicit port are pieces of `rest` as they stand. -/
theorem parse_url_scheme_case (s1 s2 rest : Str) (out : Url) (error : Str)
    (hcase : to_lower_inplace s1 = to_lower_inplace s2)
    (hfirst : FirstSep (s1 ++ rest) s1.length) :
    parse_url (s1 ++ rest) out error = parse_url (s2 ++ rest) out error ∧
      ∀ r e, parse_url (s1 ++ rest) out error = some ⟨true, r, e⟩ →
        r.scheme = to_lower_inplace s1 ∧
        (∃ tail, rest = "://".toList ++ r.host ++ tail) ∧
        (r.path = "/".toList ∨ ∃ pre, rest = pre ++ r.path) ∧
        ((∃ pre post, rest = pre ++ r.port ++ post) ∨ r.port = default_port r.scheme ∨
          r.port = out.port) := by
  have hf := (find_str_sep_iff _ _).2 hfirst
  refine ⟨parse_url_case s1 s2 rest out error hcase hf, ?_⟩
  intro r e h
  obtain ⟨s, rest2, hin, hf2, h1, ⟨tail, h2⟩, h3, h4⟩ := parse_url_ok_verbatim h
  have hlen : s.length = s1.length := by
    rw [hf] at hf2
    exact (Option.some.inj hf2).symm
  rw [List.append_assoc] at hin
  obtain ⟨es, er⟩ := List.append_inj hin hlen.symm
  subst es
  refine ⟨h1, ⟨tail, by rw [er, h2, List.append_assoc]⟩, ?_, ?_⟩
  · exact h3.imp id fun ⟨pre, hp⟩ => ⟨"://".toList ++ pre, by rw [er, hp, List.append_assoc]⟩
  · exact h4.imp (fun ⟨pre, post, hp⟩ =>
      ⟨"://".toList ++ pre, post, by rw [er, hp]; simp only [List.append_assoc]⟩) id

/-- C6, the instances `HTTPS://a.com/x` and `https://a.com/x`. -/
theorem parse_url_scheme_case_witness :
    FirstSep ("HTTPS".toList ++ "://a.com/x".toList) "HTTPS".toList.length ∧
      parse_url "HTTPS://a.com/x".toList Url.empty [] =
        some ⟨true, ⟨"https".toList, "a.com".toList, "443".toList, "/x".toList⟩, []⟩ ∧
      parse_url ("HTTPS".toList ++ "://a.com/x".toList) Url.empty [] =
        parse_url ("https".toList ++ "://a.com/x".toList) Url.empty [] :=
  have hfirst : FirstSep ("HTTPS".toList ++ "://a.com/x".toList) "HTTPS".toList.length :=
    (find_str_sep_iff _ _).1 (by decide)
  ⟨hfirst, by decide,
    (parse_url_scheme_case "HTTPS".toList "https".toList "://a.com/x".toList Url.empty []
      (by decide) hfirst).1⟩

/-- C8. Unsupported scheme: when the input contains `://` and the text before
its first occurrence, lower-cased, is neither `http` nor `https` (the empty
text included), `parse_url` fails whatever follows the separator; it has stored
the lower-cased text in `out.scheme` and has not touched the error text. -/
theorem parse_url_unsupported_scheme (input : Str) (pos : Nat) (out : Url) (error : Str)
    (hfirst : FirstSep input pos)
    (hbad : to_lower_inplace (input.take pos) ≠ "http".toList ∧
      to_lower_inplace (input.take pos) ≠ "https".toList) :
    parse_url input out error =
      some ⟨false, { out with scheme := to_lower_inplace (input.take pos) }, error⟩ := by
  rw [parse_url_eq, (find_str_sep_iff _ _).2 hfirst]
  simp only []
  rw [parse_rest_bad_scheme _ _ _ (fun h => h.elim hbad.1 hbad.2)]

/-- C8, the instance `ftp://example.com/`. -/
theorem parse_url_unsupported_scheme_witness :
    FirstSep "ftp://example.com/".toList 3 ∧
      parse_url "ftp://example.com/".toList Url.empty [] =
        some ⟨false, ⟨"ftp".toList, [], [], []⟩, []⟩ :=
  have hfirst : FirstSep "ftp://example.com/".toList 3 :=
    (find_str_sep_iff _ _).1 (by decide)
  ⟨hfirst,
    parse_url_unsupported_scheme "ftp://example.com/".toList 3 Url.empty [] hfirst
      ⟨by decide, by decide⟩⟩

/-- C9. Invalid port: for an accepted scheme `S`, a non-empty host (bare, or
bracketed and closed by its first `]`), a port text `PT` without `/` that holds
a character outside `0`..`9`, and a following text `Q` that is empty or starts
with `/`, `parse_url` on `S ++ "://" ++ host ++ ":" ++ PT ++ Q` fails with the
reason `"Invalid port: " ++ PT`. -/
theorem parse_url_invalid_port (S hst PT Q : Str) (out : Url) (error : Str)
    (hS : to_lower_inplace S = "http".toList ∨ to_lower_inplace S = "https".toList)
    (hhost : (hst ≠ [] ∧ hst.head? ≠ some '[' ∧ ':' ∉ hst ∧ '/' ∉ hst) ∨
      (∃ b, hst = '[' :: (b ++ [']']) ∧ ']' ∉ b))
    (hPT : '/' ∉ PT) (hbad : ∃ c ∈ PT, ¬ ('0' ≤ c ∧ c ≤ '9')) (hQ : PathText Q) :
    parse_url (S ++ "://".toList ++ hst ++ ":".toList ++ PT ++ Q) out error =
      some ⟨false, ⟨to_lower_inplace S, hst, PT, path_of Q⟩,
        "Invalid port: ".toList ++ PT⟩ := by
  have hnd : ¬ IsDigits PT := by
    obtain ⟨c, hc, hn⟩ := hbad
    exact fun hd => hn (hd c hc)
  have hfin : finalize_defaults ⟨to_lower_inplace S, hst, PT, path_of Q⟩ error =
      ⟨false, ⟨to_lower_inplace S, hst, PT, path_of Q⟩, "Invalid port: ".toList ++ PT⟩ :=
    finalize_defaults_bad _ error hnd
  rcases hhost with ⟨h1, h2, h3, h4⟩ | ⟨b, h1, h2⟩
  · have := parse_url_bare_shape S hst (some PT) Q out error hS h1 h3 h4 h2
      (fun p hp => by cases hp; exact hPT) hQ
    rw [Option.getD_some, hfin] at this
    rw [← this]
    simp only [opt_port, List.append_assoc, List.cons_append, List.nil_append]
    rfl
  · have := parse_url_bracketed_shape S b (some PT) Q out error hS h2
      (fun p hp => by cases hp; exact hPT) hQ
    rw [Option.getD_some, ← h1, hfin] at this
    rw [← this, h1]
    simp only [opt_port, List.append_assoc, List.cons_append, List.nil_append]
    rfl

/-- C9, the instance `http://example.com:abc/`. -/
theorem parse_url_invalid_port_witness :
    parse_url "http://example.com:abc/".toList Url.empty [] =
      some ⟨false, ⟨"http".toList, "example.com".toList, "abc".toList, "/".toList⟩,
        "Invalid port: abc".toList⟩ :=
  parse_url_invalid_port "http".toList "example.com".toList "abc".toList "/".toList
    Url.empty [] (by decide) (Or.inl ⟨by decide, by decide, by decide, by decide⟩)
    (by decide) ⟨'a', by decide, by decide⟩ (Or.inr rfl)

/-- C10. Unterminated IPv6 literal: for an accepted scheme `S` and a text `X`
without `]`, `parse_url` on `S ++ "://[" ++ X` fails with the reason
`Invalid URL: missing closing ']' for IPv6 address`. -/
theorem parse_url_unterminated (S X : Str) (out : Url) (error : Str)
    (hS : to_lower_inplace S = "http".toList ∨ to_lower_inplace S = "https".toList)
    (hX : ']' ∉ X) :
    parse_url (S ++ "://[".toList ++ X) out error =
      some ⟨false, { out with scheme := to_lower_inplace S },
        "Invalid URL: missing closing ']' for IPv6 address".toList⟩ := by
  have e : S ++ "://[".toList ++ X = S ++ "://".toList ++ ('[' :: X) := by
    have e1 : "://[".toList = "://".toList ++ ['['] := rfl
    rw [e1]
    simp only [List.append_assoc, List.singleton_append]
  have hm : ']' ∉ '[' :: X := by
    intro hm
    rcases List.mem_cons.1 hm with h | h
    · exact absurd h (by decide)
    · exact hX h
  rw [e, parse_url_append _ _ _ _ (find_str_append_sep _ _ (colon_not_mem_of_scheme hS)),
    parse_rest_bracketed _ _ ('[' :: X) hS rfl, bracketed_rest_unterminated _ _ _ hm]

/-- C10, the instance `https://[2001:db8::1/`. -/
theorem parse_url_unterminated_witness :
    parse_url "https://[2001:db8::1/".toList Url.empty [] =
      some ⟨false, ⟨"https".toList, [], [], []⟩,
        "Invalid URL: missing closing ']' for IPv6 address".toList⟩ :=
  parse_url_unterminated "https".toList "2001:db8::1/".toList Url.empty []
    (by decide) (by decide)

/-- C14. Totality: on every input, whatever the caller's record and error
text hold, `parse_url` returns a result; no `substr` starts beyond the end of
the input and no index reaches it, these being the only ways the model has of
not returning. -/
theorem parse_url_total (input : Str) (out : Url) (error : Str) :
    ∃ o, parse_url input out error = some o := by
  rw [parse_url_eq]
  cases find_str input "://".toList 0 with
  | none => exact ⟨_, rfl⟩
  | some pos => exact ⟨_, rfl⟩

/-- C17. No port range check: for an accepted scheme `S`, a non-empty bare or
bracketed host, any non-empty all-digit text `P` and a following text `Q` that
is empty or starts with `/`, `parse_url` on `S ++ "://" ++ host ++ ":" ++ P ++ Q`
succeeds and returns `P` as the port, character for character. -/
theorem parse_url_port_verbatim (S hst P Q : Str) (out : Url) (error : Str)
    (hS : to_lower_inplace S = "http".toList ∨ to_lower_inplace S = "https".toList)
    (hhost : HostText hst) (hne : P ≠ []) (hd : IsDigits P) (hQ : PathText Q) :
    parse_url (S ++ "://".toList ++ hst ++ ":".toList ++ P ++ Q) out error =
      some ⟨true, ⟨to_lower_inplace S, hst, P, path_of Q⟩, error⟩ := by
  rw [parse_url_explicit_port S hst P Q out error hS hhost hd.slash_not_mem hQ]
  exact congrArg some (finalize_defaults_digits _ error hne hd)

/-- C17, the instances `0`, `00080`, `65536` after a bare host and a 40-digit
port after a bracketed host. -/
theorem parse_url_port_verbatim_witness :
    parse_url "http://a:0".toList Url.empty [] =
        some ⟨true, ⟨"http".toList, "a".toList, "0".toList, "/".toList⟩, []⟩ ∧
      parse_url "http://a:00080/x".toList Url.empty [] =
        some ⟨true, ⟨"http".toList, "a".toList, "00080".toList, "/x".toList⟩, []⟩ ∧
      parse_url "http://a:65536".toList Url.empty [] =
        some ⟨true, ⟨"http".toList, "a".toList, "65536".toList, "/".toList⟩, []⟩ ∧
      parse_url "https://[::1]:1234567890123456789012345678901234567890".toList
          Url.empty [] =
        some ⟨true, ⟨"https".toList, "[::1]".toList,
          "1234567890123456789012345678901234567890".toList, "/".toList⟩, []⟩ :=
  ⟨parse_url_port_verbatim "http".toList "a".toList "0".toList [] Url.empty []
      (by decide) (Or.inl ⟨by decide, by decide, by decide, by decide⟩)
      (by decide) (by decide) (Or.inl rfl),
    parse_url_port_verbatim "http".toList "a".toList "00080".toList "/x".toList Url.empty []
      (by decide) (Or.inl ⟨by decide, by decide, by decide, by decide⟩)
      (by decide) (by decide) (Or.inr rfl),
    parse_url_port_verbatim "http".toList "a".toList "65536".toList [] Url.empty []
      (by decide) (Or.inl ⟨by decide, by decide, by decide, by decide⟩)
      (by decide) (by decide) (Or.inl rfl),
    parse_url_port_verbatim "https".toList "[::1]".toList
      "1234567890123456789012345678901234567890".toList [] Url.empty []
      (by decide) (Or.inr ⟨"::1".toList, rfl, by decide⟩)
      (by decide) (by decide) (Or.inl rfl)⟩

/-- C20. An explicit but empty port is treated as absent: for an accepted
scheme `S`, a non-empty bare or bracketed host and a following text `Q` that is
empty or starts with `/`, `parse_url` on `S ++ "://" ++ host ++ ":" ++ Q`, from an
empty record, succeeds and returns the default port of the scheme. -/
theorem parse_url_empty_port (S hst Q : Str) (error : Str)
    (hS : to_lower_inplace S = "http".toList ∨ to_lower_inplace S = "https".toList)
    (hhost : HostText hst) (hQ : PathText Q) :
    parse_url (S ++ "://".toList ++ hst ++ ":".toList ++ Q) Url.empty error =
      some ⟨true,
        ⟨to_lower_inplace S, hst, default_port (to_lower_inplace S), path_of Q⟩, error⟩ := by
  have := parse_url_explicit_port S hst [] Q Url.empty error hS hhost (by simp) hQ
  rw [List.append_nil] at this
  rw [this]
  exact congrArg some (finalize_defaults_empty _ error rfl hS)

/-- C20, the instances `http://example.com:/x` and `https://[::1]:`. -/
theorem parse_url_empty_port_witness :
    parse_url "http://example.com:/x".toList Url.empty [] =
        some ⟨true, ⟨"http".toList, "example.com".toList, "80".toList, "/x".toList⟩, []⟩ ∧
      parse_url "https://[::1]:".toList Url.empty [] =
        some ⟨true, ⟨"https".toList, "[::1]".toList, "443".toList, "/".toList⟩, []⟩ :=
  ⟨parse_url_empty_port "http".toList "example.com".toList "/x".toList []
      (by decide) (Or.inl ⟨by decide, by decide, by decide, by decide⟩) (Or.inr rfl),
    parse_url_empty_port "https".toList "[::1]".toList [] []
      (by decide) (Or.inr ⟨"::1".toList, rfl, by decide⟩) (Or.inl rfl)⟩

/-- C19. Unbracketed IPv6 literals are never accepted: for an accepted scheme
`S` and a text `h ++ ":" ++ p ++ q` after `://` that does not begin with `[`,
whose first `:` follows `h` and whose second `:` lies in `p`, before the first
`/`, the first `:` splits host from port and `parse_url` fails: with the
empty-host reason when `h` is empty, otherwise with `"Invalid port: " ++ p`. -/
theorem parse_url_unbracketed_ipv6 (S h p q : Str) (out : Url) (error : Str)
    (hS : to_lower_inplace S = "http".toList ∨ to_lower_inplace S = "https".toList)
    (hbr : h.head? ≠ some '[') (hc : ':' ∉ h) (hs : '/' ∉ h) (hp : '/' ∉ p)
    (hsecond : ':' ∈ p) (hq : PathText q) :
    parse_url (S ++ "://".toList ++ h ++ ":".toList ++ p ++ q) out error =
      some (if h = [] then
          ⟨false, ⟨to_lower_inplace S, [], p, out.path⟩, "Invalid URL: empty host".toList⟩
        else
          ⟨false, ⟨to_lower_inplace S, h, p, path_of q⟩, "Invalid port: ".toList ++ p⟩) := by
  have e : S ++ "://".toList ++ h ++ ":".toList ++ p ++ q =
      S ++ "://".toList ++ (h ++ ':' :: (p ++ q)) := by
    have e1 : ":".toList = [':'] := rfl
    rw [e1]
    simp only [List.append_assoc, List.singleton_append, List.cons_append, List.nil_append]
  rw [e, parse_url_bare_colon S h p q out error hS hbr hc hs hp hq]
  by_cases hh : h = []
  · subst hh
    rfl
  · rw [if_neg hh, isEmpty_false_of_ne_nil hh]
    have hnd : ¬ IsDigits p := fun hd => hd.colon_not_mem hsecond
    exact congrArg some (finalize_defaults_bad _ error hnd)

/-- C19, the instance `http://2001:db8::1/`. -/
theorem parse_url_unbracketed_ipv6_witness :
    parse_url "http://2001:db8::1/".toList Url.empty [] =
      some ⟨false, ⟨"http".toList, "2001".toList, "db8::1".toList, "/".toList⟩,
        "Invalid port: db8::1".toList⟩ :=
  parse_url_unbracketed_ipv6 "http".toList "2001".toList "db8::1".toList "/".toList
    Url.empty [] (by decide) (by decide) (by decide) (by decide) (by decide) (by decide)
    (Or.inr rfl)

/-- C11. Empty host is rejected, and only then: for an accepted scheme `S` and
any text `rest` after `://`, `parse_url` fails with the reason
`Invalid URL: empty host` if and only if `rest` is empty or begins with `/` or
`:`; in particular never when `rest` begins with `[`. -/
theorem parse_url_empty_host_iff (S rest : Str) (out : Url) (error : Str)
    (hS : to_lower_inplace S = "http".toList ∨ to_lower_inplace S = "https".toList) :
    ((∃ o, parse_url (S ++ "://".toList ++ rest) out error = some o ∧ o.ok = false ∧
          o.error = "Invalid URL: empty host".toList) ↔
        (rest = [] ∨ rest.head? = some '/' ∨ rest.head? = some ':')) ∧
      (rest.head? = some '[' →
        ¬ ∃ o, parse_url (S ++ "://".toList ++ rest) out error = some o ∧ o.ok = false ∧
          o.error = "Invalid URL: empty host".toList) := by
  have key : (∃ o, parse_url (S ++ "://".toList ++ rest) out error = some o ∧ o.ok = false ∧
        o.error = "Invalid URL: empty host".toList) ↔
      (rest = [] ∨ rest.head? = some '/' ∨ rest.head? = some ':') := by
    rw [parse_url_append _ _ _ _ (find_str_append_sep _ _ (colon_not_mem_of_scheme hS)),
      ← parse_rest_empty_host_iff { out with scheme := to_lower_inplace S } rest error hS]
    constructor
    · rintro ⟨o, ho, h1, h2⟩
      rw [Option.some.inj ho]
      exact ⟨h1, h2⟩
    · exact fun h => ⟨_, rfl, h.1, h.2⟩
  refine ⟨key, fun hb hex => ?_⟩
  rcases key.1 hex with r | r | r
  · rw [r] at hb; simp at hb
  · rw [r] at hb; exact absurd hb (by decide)
  · rw [r] at hb; exact absurd hb (by decide)

/-- C11, the instances `http://`, `http:///p`, `http://:80/` (rejected for an
empty host) and `http://[]` (accepted). -/
theorem parse_url_empty_host_iff_witness :
    parse_url "http://".toList Url.empty [] =
        some ⟨false, ⟨"http".toList, [], [], []⟩, "Invalid URL: empty host".toList⟩ ∧
      parse_url "http:///p".toList Url.empty [] =
        some ⟨false, ⟨"http".toList, [], [], []⟩, "Invalid URL: empty host".toList⟩ ∧
      parse_url "http://:80/".toList Url.empty [] =
        some ⟨false, ⟨"http".toList, [], "80".toList, []⟩,
          "Invalid URL: empty host".toList⟩ ∧
      parse_url "http://[]".toList Url.empty [] =
        some ⟨true, ⟨"http".toList, "[]".toList, "80".toList, "/".toList⟩, []⟩ ∧
      ((∃ o, parse_url ("http".toList ++ "://".toList ++ ":80/".toList) Url.empty [] = some o ∧
          o.ok = false ∧ o.error = "Invalid URL: empty host".toList) ↔
        (":80/".toList = [] ∨ ":80/".toList.head? = some '/' ∨
          ":80/".toList.head? = some ':')) :=
  ⟨by decide, by decide, by decide, by decide,
    (parse_url_empty_host_iff "http".toList ":80/".toList Url.empty [] (by decide)).1⟩

/-- C12. Missing separator is rejected, and only then: when the input has no
occurrence of `://`, `parse_url` fails with the reason
`Invalid URL: missing '://'` and leaves the record alone; called with an error
text that is not already this message, it fails with this reason if and only if
the input has no occurrence of `://`; and when `://` occurs, the scheme stored
is the lower-cased text before its first occurrence. -/
theorem parse_url_missing_separator (input : Str) (out : Url) (error : Str) :
    ((¬ ∃ a b, input = a ++ "://".toList ++ b) →
        parse_url input out error =
          some ⟨false, out, "Invalid URL: missing '://'".toList⟩) ∧
      (error ≠ "Invalid URL: missing '://'".toList →
        ((∃ o, parse_url input out error = some o ∧ o.ok = false ∧
            o.error = "Invalid URL: missing '://'".toList) ↔
          ¬ ∃ a b, input = a ++ "://".toList ++ b)) ∧
      (∀ pos, FirstSep input pos →
        ∃ o, parse_url input out error = some o ∧
          o.out.scheme = to_lower_inplace (input.take pos)) := by
  have h1 : (¬ ∃ a b, input = a ++ "://".toList ++ b) →
      parse_url input out error =
        some ⟨false, out, "Invalid URL: missing '://'".toList⟩ := by
    intro hn
    rw [parse_url_eq, (find_str_none_iff input).2 hn]
  refine ⟨h1, fun hfresh => ⟨?_, fun hn => ⟨_, h1 hn, rfl, rfl⟩⟩, ?_⟩
  · rintro ⟨o, ho, hf, he⟩
    rw [← find_str_none_iff]
    cases hfind : find_str input "://".toList 0 with
    | none => rfl
    | some pos =>
      exfalso
      rw [parse_url_eq, hfind] at ho
      have ho2 := Option.some.inj ho
      rw [← ho2] at hf he
      rcases (parse_rest_fail_cases _ _ _ hf).2 with ⟨_, ⟨h3, _⟩ | h3⟩ | ⟨h3, _⟩ | ⟨h3, _⟩
      · exact hfresh (h3 ▸ he)
      · rw [h3] at he
        exact absurd he (by decide)
      · rw [h3] at he
        exact absurd he (by decide)
      · rw [h3] at he
        exact invalid_port_ne_missing_sep _ he
  · intro pos hp
    rw [parse_url_eq, (find_str_sep_iff _ _).2 hp]
    exact ⟨_, rfl, parse_rest_scheme _ _ _⟩

/-- C12, the instances `example.com` (no `://`) and `HTTP://a` (scheme `http`). -/
theorem parse_url_missing_separator_witness :
    parse_url "example.com".toList Url.empty [] =
        some ⟨false, Url.empty, "Invalid URL: missing '://'".toList⟩ ∧
      ((∃ o, parse_url "HTTP://a".toList Url.empty [] = some o ∧ o.ok = false ∧
          o.error = "Invalid URL: missing '://'".toList) ↔
        ¬ ∃ a b, "HTTP://a".toList = a ++ "://".toList ++ b) ∧
      (∃ o, parse_url "HTTP://a".toList Url.empty [] = some o ∧
        o.out.scheme = to_lower_inplace ("HTTP://a".toList.take 4)) :=
  ⟨by decide,
    (parse_url_missing_separator "HTTP://a".toList Url.empty []).2.1 (by decide),
    (parse_url_missing_separator "HTTP://a".toList Url.empty []).2.2 4
      ((find_str_sep_iff _ _).1 (by decide))⟩

/-- C13. Every failure carries a reason, save one: called with an empty error
text, `parse_url` on `ftp://example.com/` returns `false` and leaves the error
text empty, while the failures for a missing separator, an unterminated IPv6
literal, an empty host and an invalid port each store a message. -/
theorem parse_url_scheme_failure_silent :
    parse_url "ftp://example.com/".toList Url.empty [] =
        some ⟨false, ⟨"ftp".toList, [], [], []⟩, []⟩ ∧
      parse_url "example.com".toList Url.empty [] =
        some ⟨false, Url.empty, "Invalid URL: missing '://'".toList⟩ ∧
      parse_url "http://[::1".toList Url.empty [] =
        some ⟨false, ⟨"http".toList, [], [], []⟩,
          "Invalid URL: missing closing ']' for IPv6 address".toList⟩ ∧
      parse_url "http:///index.html".toList Url.empty [] =
        some ⟨false, ⟨"http".toList, [], [], []⟩, "Invalid URL: empty host".toList⟩ ∧
      parse_url "http://a:8o".toList Url.empty [] =
        some ⟨false, ⟨"http".toList, "a".toList, "8o".toList, "/".toList⟩,
          "Invalid port: 8o".toList⟩ := by
  refine ⟨?_, ?_, ?_, ?_, ?_⟩ <;> decide

/-- C16, as stated, fails: on `http://:80/x`, from an empty record,
`parse_url` fails for an empty host and leaves `http` in the scheme field and
`80` in the port field of the caller's record. -/
theorem parse_url_failure_not_atomic :
    parse_url "http://:80/x".toList Url.empty [] =
        some ⟨false, ⟨"http".toList, [], "80".toList, []⟩,
          "Invalid URL: empty host".toList⟩ ∧
      (⟨"http".toList, [], "80".toList, []⟩ : Url) ≠ Url.empty := by
  constructor <;> decide

/-- C16, amended. What a failed parse leaves in the caller's record, failure
by failure. With no `://` in the input, the record as it was. Otherwise the
scheme field holds the lower-cased text before the first `://`, and, `rest`
being the text after it:
* scheme not accepted, or `rest` beginning with `[` and holding no `]`: host,
  port and path as they were;
* scheme accepted and `rest` empty or beginning with `/`: the empty-host
  reason, host empty, port and path as they were;
* scheme accepted and `rest` beginning with `:`: the empty-host reason, host
  empty, port the text between that `:` and the next `/` (or the end), path as
  it was;
* in the remaining case, the invalid-port reason naming the port field, a
  non-empty host that `rest` begins with, and a path starting with `/`. -/
theorem parse_url_failure_record (input : Str) (out : Url) (error : Str) (o : Outcome)
    (h : parse_url input out error = some o) (hf : o.ok = false) :
    ((¬ ∃ a b, input = a ++ "://".toList ++ b) → o.out = out) ∧
      ∀ pos, FirstSep input pos →
        o.out.scheme = to_lower_inplace (input.take pos) ∧
        ((¬ (to_lower_inplace (input.take pos) = "http".toList ∨
              to_lower_inplace (input.take pos) = "https".toList) ∨
            ((input.drop (pos + 3)).head? = some '[' ∧ ']' ∉ input.drop (pos + 3))) →
          o.out.host = out.host ∧ o.out.port = out.port ∧ o.out.path = out.path) ∧
        ((to_lower_inplace (input.take pos) = "http".toList ∨
              to_lower_inplace (input.take pos) = "https".toList) →
          (input.drop (pos + 3) = [] ∨ (input.drop (pos + 3)).head? = some '/') →
          o.error = "Invalid URL: empty host".toList ∧
            o.out.host = [] ∧ o.out.port = out.port ∧ o.out.path = out.path) ∧
        ((to_lower_inplace (input.take pos) = "http".toList ∨
              to_lower_inplace (input.take pos) = "https".toList) →
          ∀ p q, input.drop (pos + 3) = ':' :: (p ++ q) → '/' ∉ p → PathText q →
          o.error = "Invalid URL: empty host".toList ∧
            o.out.host = [] ∧ o.out.port = p ∧ o.out.path = out.path) ∧
        ((to_lower_inplace (input.take pos) = "http".toList ∨
              to_lower_inplace (input.take pos) = "https".toList) →
          ¬ ((input.drop (pos + 3)).head? = some '[' ∧ ']' ∉ input.drop (pos + 3)) →
          ¬ (input.drop (pos + 3) = [] ∨ (input.drop (pos + 3)).head? = some '/' ∨
            (input.drop (pos + 3)).head? = some ':') →
          o.error = "Invalid port: ".toList ++ o.out.port ∧
            o.out.host ≠ [] ∧ (∃ tail, input.drop (pos + 3) = o.out.host ++ tail) ∧
            o.out.path.head? = some '/') := by
  rw [parse_url_eq] at h
  constructor
  · intro hn
    rw [(find_str_none_iff input).2 hn] at h
    rw [← Option.some.inj h]
  · intro pos hpos
    rw [(find_str_sep_iff _ _).2 hpos] at h
    have ho := Option.some.inj h
    rw [← ho] at hf ⊢
    refine ⟨parse_rest_scheme _ _ _, ?_, ?_, ?_, ?_⟩
    · rintro (hbad | ⟨hb, hm⟩)
      · rw [parse_rest_bad_scheme _ _ _ hbad]
        exact ⟨rfl, rfl, rfl⟩
      · by_cases hS : to_lower_inplace (input.take pos) = "http".toList ∨
            to_lower_inplace (input.take pos) = "https".toList
        · rw [parse_rest_bracketed _ _ _ hS hb, bracketed_rest_unterminated _ _ _ hm]
          exact ⟨rfl, rfl, rfl⟩
        · rw [parse_rest_bad_scheme _ _ _ hS]
          exact ⟨rfl, rfl, rfl⟩
    · intro hS hr
      rw [parse_rest_no_host _ _ _ hS hr]
      exact ⟨rfl, rfl, rfl, rfl⟩
    · intro hS p q e hp hq
      rw [e, parse_rest_colon_first _ _ _ _ hS hp hq]
      exact ⟨rfl, rfl, rfl, rfl⟩
    · intro hS hu he
      obtain ⟨f1, _, f3, f4, f5⟩ := parse_rest_invalid_port _ _ _ hS hf hu he
      exact ⟨f1, f3, f4, f5⟩

/-- C16, amended, the instance `http://[::1` from a record that holds text in
host, port and path: the scheme field is overwritten, the other three are
kept. -/
theorem parse_url_failure_record_witness :
    parse_url "http://[::1".toList ⟨[], "h".toList, "1".toList, "/p".toList⟩ [] =
        some ⟨false, ⟨"http".toList, "h".toList, "1".toList, "/p".toList⟩,
          "Invalid URL: missing closing ']' for IPv6 address".toList⟩ ∧
      FirstSep "http://[::1".toList 4 ∧
      (⟨"http".toList, "h".toList, "1".toList, "/p".toList⟩ : Url).scheme =
        to_lower_inplace ("http://[::1".toList.take 4) ∧
      (⟨"http".toList, "h".toList, "1".toList, "/p".toList⟩ : Url).host = "h".toList ∧
      (⟨"http".toList, "h".toList, "1".toList, "/p".toList⟩ : Url).port = "1".toList ∧
      (⟨"http".toList, "h".toList, "1".toList, "/p".toList⟩ : Url).path = "/p".toList :=
  have hfirst : FirstSep "http://[::1".toList 4 := (find_str_sep_iff _ _).1 (by decide)
  have key := (parse_url_failure_record "http://[::1".toList
      ⟨[], "h".toList, "1".toList, "/p".toList⟩ []
      ⟨false, ⟨"http".toList, "h".toList, "1".toList, "/p".toList⟩,
        "Invalid URL: missing closing ']' for IPv6 address".toList⟩ (by decide) rfl).2 4 hfirst
  ⟨by decide, hfirst, key.1, key.2.1 (Or.inr ⟨by decide, by decide⟩)⟩

/-- C18, as stated, fails: `https://[::1]x/p`, which has `x` between the
closing `]` and the next `/`, is accepted, from an empty record, with host
`[::1]`, port `443` and path `/p`. -/
theorem parse_url_stray_text_accepted :
    parse_url "https://[::1]x/p".toList Url.empty [] =
        some ⟨true, ⟨"https".toList, "[::1]".toList, "443".toList, "/p".toList⟩, []⟩ ∧
      "https://[::1]x/p".toList =
        "https://".toList ++ "[::1]".toList ++ "x".toList ++ "/p".toList ∧
      "x".toList ≠ [] := by
  refine ⟨?_, ?_, ?_⟩ <;> decide

/-- C18, amended. The text after a bracketed host is not examined: for an
accepted scheme `S`, a text `B` without `]`, any text `J` without `/` that does
not begin with `:`, and a following text `Q` that is empty or starts with `/`,
`parse_url` on `S ++ "://[" ++ B ++ "]" ++ J ++ Q`, from an empty record,
succeeds with host `"[" ++ B ++ "]"`, the default port of the scheme and the
path `Q` (or `/`); `J` is dropped. -/
theorem parse_url_stray_text_dropped (S B J Q : Str) (error : Str)
    (hS : to_lower_inplace S = "http".toList ∨ to_lower_inplace S = "https".toList)
    (hB : ']' ∉ B) (hJ : '/' ∉ J) (hJc : J.head? ≠ some ':') (hQ : PathText Q) :
    parse_url (S ++ "://[".toList ++ B ++ "]".toList ++ J ++ Q) Url.empty error =
      some ⟨true,
        ⟨to_lower_inplace S, "[".toList ++ B ++ "]".toList,
          default_port (to_lower_inplace S), path_of Q⟩,
        error⟩ := by
  have e : S ++ "://[".toList ++ B ++ "]".toList ++ J ++ Q =
      S ++ "://".toList ++ ('[' :: (B ++ ']' :: (J ++ Q))) := by
    have e1 : "://[".toList = "://".toList ++ ['['] := rfl
    have e2 : "]".toList = [']'] := rfl
    rw [e1, e2]
    simp only [List.append_assoc, List.cons_append, List.nil_append, List.singleton_append]
  have e3 : "[".toList ++ B ++ "]".toList = '[' :: (B ++ [']']) := rfl
  rw [e, e3, parse_url_bracketed_stray S B J Q Url.empty error hS hB hJ hJc hQ]
  exact congrArg some (finalize_defaults_empty _ error rfl hS)

/-- C18, amended, the instance `http://[::1]junk`. -/
theorem parse_url_stray_text_dropped_witness :
    parse_url "http://[::1]junk".toList Url.empty [] =
      some ⟨true, ⟨"http".toList, "[::1]".toList, "80".toList, "/".toList⟩, []⟩ :=
  parse_url_stray_text_dropped "http".toList "::1".toList "junk".toList [] []
    (by decide) (by decide) (by decide) (by decide) (Or.inl rfl)

end MyCurl
